import Mathlib

/-!
# Verification of the CSV / columnar-table module (`src/dataframe.py`)

This file is a shallow embedding, in Lean 4, of the single source file
`dataframe.py`: a tagged value type (`Value`) for Python's int / float / str
scalars as produced by `convert_value`, a faithful model of the regex-based
field tokenizer used by `read_csv`, the `DataFrame` columnar store, and the
table operations `filter`, `select` and `group_by`.

Modelling conventions:
* Python strings are `List Char`; the ASCII whitespace characters recognised
  by `str.strip` and the regex class `\s` are modelled (the source data in
  question is ASCII; unicode whitespace and unicode digits are out of scope).
* Python `float` payloads are modelled as exact rationals plus the special
  values `inf`, `-inf` and `nan`; the claims under study depend only on which
  constructor a text maps to and on (exact, small) dyadic values, never on
  binary64 rounding.
* Fallible Python code (`KeyError`, `IndexError`, unbound locals, attribute
  errors) is modelled with `Option` / `Except`.
-/

namespace Df

/-- Python `float` payload: an exact rational for finite values, plus the
special values produced by `float("inf")`, `float("-inf")`, `float("nan")`. -/
inductive PyFloat where
  | finite (q : ℚ)
  | inf
  | ninf
  | nan
  deriving DecidableEq, Repr

/-- The tagged scalar values a `DataFrame` cell can hold: Python int,
Python float, Python str (as a character list). -/
inductive Value where
  | vInt (n : ℤ)
  | vFloat (f : PyFloat)
  | vStr (s : List Char)
  deriving DecidableEq, Repr

/-- Python `==` on two float payloads: exact numeric equality on finite
values, `inf == inf`, `-inf == -inf`, and `nan` unequal to everything
(including itself). -/
def PyFloat.pyBeq : PyFloat → PyFloat → Bool
  | PyFloat.finite a, PyFloat.finite b => decide (a = b)
  | PyFloat.inf, PyFloat.inf => true
  | PyFloat.ninf, PyFloat.ninf => true
  | _, _ => false

/-- Numeric equality between a Python int and a finite float payload: a
(normalized) rational equals the integer `a` exactly when its denominator is
one and its numerator is `a`. -/
def intEqRat (a : ℤ) (q : ℚ) : Bool :=
  q.den = 1 && q.num = a

/-- Python `==` on scalar values: numeric cross-type equality between int and
float (`1 == 1.0` is true), type-sensitive between text and numbers. This is
the equality used by Python `dict` keys and hence by `group_by` and by column
lookup. -/
def pyEq : Value → Value → Bool
  | Value.vInt a, Value.vInt b => decide (a = b)
  | Value.vInt a, Value.vFloat (PyFloat.finite q) => intEqRat a q
  | Value.vFloat (PyFloat.finite q), Value.vInt b => intEqRat b q
  | Value.vFloat a, Value.vFloat b => PyFloat.pyBeq a b
  | Value.vStr a, Value.vStr b => decide (a = b)
  | _, _ => false

/-- The ASCII whitespace characters matched by Python's `str.strip()` and by
the regex class `\s` (on ASCII input). -/
def isPySpace (c : Char) : Bool :=
  c = ' ' || c = '\t' || c = '\n' || c = '\r' || c = '\x0b' || c = '\x0c'

/-- ASCII decimal digit test (`0`-`9`), as used by Python `int()` / `float()`
parsing of ASCII text. -/
def isPyDigit (c : Char) : Bool :=
  '0' ≤ c && c ≤ '9'

/-- A digit or an underscore: the characters admissible inside the digit part
of a Python numeric literal string (PEP 515 underscores). -/
def isUD (c : Char) : Bool :=
  isPyDigit c || c = '_'

/-- Numeric value of an ASCII digit character. -/
def digitVal (c : Char) : Nat :=
  c.toNat - '0'.toNat

/-- Base-10 value of a digit list. -/
def natOfDigits (l : List Char) : Nat :=
  l.foldl (fun acc c => acc * 10 + digitVal c) 0

/-- `str.strip()` / the whitespace stripping done by Python numeric string
conversion: drop ASCII whitespace from both ends. -/
def stripPy (l : List Char) : List Char :=
  ((l.dropWhile isPySpace).reverse.dropWhile isPySpace).reverse

/-- Split an optional leading sign, returning the sign as an integer factor
together with the remainder. -/
def splitSign : List Char → Int × List Char
  | '+' :: rest => (1, rest)
  | '-' :: rest => (-1, rest)
  | l => (1, l)

mutual

/-- State `A` of the digit-group acceptor: expecting a digit (at the start of
the digit part, or right after an underscore). Together with `udB` this
accepts exactly the digit parts Python's number parsing accepts: nonempty
groups of decimal digits separated by single underscores. -/
def udA : List Char → Bool
  | [] => false
  | c :: rest => isPyDigit c && udB rest

/-- State `B` of the digit-group acceptor: just after a digit; may stop,
continue with a digit, or take a single underscore that must be followed by a
digit. -/
def udB : List Char → Bool
  | [] => true
  | '_' :: rest => udA rest
  | c :: rest => isPyDigit c && udB rest

end

/-- Model of CPython `int(s)` on ASCII text: strip whitespace, optional sign,
then a nonempty run of decimal digits with single underscores allowed between
digits; the value is the digits read in base 10 with the sign applied. -/
def pyIntOfList (l : List Char) : Option Int :=
  let t := stripPy l
  let p := splitSign t
  if udA p.2 then some (p.1 * (natOfDigits (p.2.filter (fun c => c ≠ '_')) : Int)) else none

/-- Lower-case an ASCII letter (for the case-insensitive `inf` / `nan`
spellings accepted by `float()`). -/
def lowAscii (c : Char) : Char :=
  if 'A' ≤ c && c ≤ 'Z' then Char.ofNat (c.toNat + 32) else c

/-- Case-insensitive comparison against `inf`, `infinity`, `nan`. -/
def isInfSpelling (l : List Char) : Bool :=
  l.map lowAscii = ['i', 'n', 'f'] || l.map lowAscii = ['i', 'n', 'f', 'i', 'n', 'i', 't', 'y']

/-- Case-insensitive comparison against `nan`. -/
def isNanSpelling (l : List Char) : Bool :=
  l.map lowAscii = ['n', 'a', 'n']

/-- The digit-with-underscores run at the front of `l`, and the rest. -/
def runUD (l : List Char) : List Char × List Char :=
  (l.takeWhile isUD, l.dropWhile isUD)

/-- A digit group run is valid when nonempty and accepted by the
digit/underscore machine. An absent (empty) run is handled by callers. -/
def udOK (l : List Char) : Bool :=
  udA l

/-- The exact rational `sign * mant * 10 ^ e10`, built with a single
normalizing `mkRat` so that it reduces in the kernel. -/
def decValue (sign : Int) (mant : Nat) (e10 : Int) : ℚ :=
  if 0 ≤ e10 then mkRat (sign * (mant : Int) * ((10 ^ e10.toNat : Nat) : Int)) 1
  else mkRat (sign * (mant : Int)) (10 ^ (-e10).toNat)

/-- Digits of a run with the underscores removed. -/
def clearU (l : List Char) : List Char :=
  l.filter (fun c => c ≠ '_')

/-- Parse the exponent part of a float body: either nothing, or `e`/`E`, an
optional sign, and a digit run. Returns the signed exponent. -/
def parseExp : List Char → Option Int
  | [] => some 0
  | c :: rest =>
    if c = 'e' || c = 'E' then
      let p := splitSign rest
      if udA p.2 then some (p.1 * (natOfDigits (clearU p.2) : Int)) else none
    else none

/-- Parse the mantissa-and-exponent shape of a Python float literal body
(no sign, no whitespace, not `inf`/`nan`): `digits [. [digits]] [exp]` or
`. digits [exp]`, with PEP 515 underscores inside each digit run. Returns the
decimal mantissa digits value and the effective power-of-ten exponent. -/
def parseFloatNum (l : List Char) : Option (Nat × Int) :=
  let ip := runUD l
  match ip.2 with
  | '.' :: r2 =>
    let fp := runUD r2
    if (ip.1 = [] || udA ip.1) && (fp.1 = [] || udA fp.1) && !(ip.1 = [] && fp.1 = []) then
      match parseExp fp.2 with
      | some e =>
        some (natOfDigits (clearU ip.1 ++ clearU fp.1), e - ((clearU fp.1).length : Int))
      | none => none
    else none
  | rest =>
    if udA ip.1 then
      match parseExp rest with
      | some e => some (natOfDigits (clearU ip.1), e)
      | none => none
    else none

/-- Model of CPython `float(s)` on ASCII text: strip whitespace, optional
sign, then `inf`/`infinity`/`nan` (case-insensitive) or decimal/exponential
notation with PEP 515 underscores. -/
def pyFloatOfList (l : List Char) : Option PyFloat :=
  let t := stripPy l
  let p := splitSign t
  if isInfSpelling p.2 then
    some (if p.1 = 1 then PyFloat.inf else PyFloat.ninf)
  else if isNanSpelling p.2 then
    some PyFloat.nan
  else
    match parseFloatNum p.2 with
    | some me => some (PyFloat.finite (decValue p.1 me.1 me.2))
    | none => none

/-- Strip one surrounding pair of double quotes when the text is at least two
characters long and both ends are a double quote, as `convert_value` does
(`val = val[1:-1]`). -/
def unquote (l : List Char) : List Char :=
  if 2 ≤ l.length && l.head? = some '"' && l.getLast? = some '"' then
    (l.drop 1).dropLast
  else l

/-- Embedding of `convert_value` (dataframe.py lines 57-69): empty text is
returned as empty text; otherwise one surrounding quote pair is stripped;
then `int()` is attempted, then `float()`, else the text is returned. -/
def convert_value (l : List Char) : Value :=
  if l = [] then Value.vStr [] else
    let v := unquote l
    match pyIntOfList v with
    | some n => Value.vInt n
    | none =>
      match pyFloatOfList v with
      | some f => Value.vFloat f
      | none => Value.vStr v

/-- Abbreviation turning a Lean string literal into the character-list
representation used throughout. -/
def str (s : String) : List Char :=
  s.data

example : convert_value (str "123") = Value.vInt 123 := by decide
example : convert_value (str "1.5") = Value.vFloat (PyFloat.finite (mkRat 3 2)) := by decide
example : convert_value (str "") = Value.vStr [] := by decide
example : convert_value (str "abc") = Value.vStr (str "abc") := by decide
example : convert_value (str "1_2") = Value.vInt 12 := by decide
example : convert_value (str " 12") = Value.vInt 12 := by decide
example : convert_value (str "- 12") = Value.vStr (str "- 12") := by decide
example : convert_value (str "inf") = Value.vFloat PyFloat.inf := by decide
example : convert_value (str "-inf") = Value.vFloat PyFloat.ninf := by decide
example : convert_value (str "nan") = Value.vFloat PyFloat.nan := by decide
example : convert_value (str "1_0.5_5e1_0") = Value.vFloat (PyFloat.finite (mkRat 105500000000 1)) := by decide
example : convert_value (str "1_.5") = Value.vStr (str "1_.5") := by decide
example : convert_value (str ".5") = Value.vFloat (PyFloat.finite (mkRat 1 2)) := by decide
example : convert_value (str "1.") = Value.vFloat (PyFloat.finite (mkRat 1 1)) := by decide
example : convert_value (str ".") = Value.vStr (str ".") := by decide
example : convert_value (str "1.5e+2") = Value.vFloat (PyFloat.finite (mkRat 150 1)) := by decide
example : convert_value (str "\"7\"") = Value.vInt 7 := by decide
example : convert_value (str "\"\"") = Value.vStr [] := by decide

/-!
## The field tokenizer of `read_csv`

`read_csv` (dataframe.py lines 74-100) splits a line with
`re.finditer` over the verbose pattern

`\s* (?: "((?:[^"]|"")*)" | ([^",]*) ) \s* (?:,|$)`

The model below is a direct operational rendering of Python's backtracking
regex engine specialised to this one pattern: greedy quantifiers try the
longest extent first and give back on failure; the alternation tries the
quoted branch first; `finditer` scans left to right, advancing one position
past a failed start, and (per Python >= 3.7) also yields an empty match
immediately after a non-empty one, which for this pattern can happen only at
the very end of the line.
-/

/-- Length of the whitespace run at the front of `l` (the greedy extent of
a leading `\s*`). -/
def wsRun (l : List Char) : Nat :=
  (l.takeWhile isPySpace).length

/-- The positions (relative offsets) at which the quoted-content
subexpression `(?:[^"]|"")*` can stop, in increasing order. At each position
at most one step applies: a non-quote character advances by one, a doubled
quote advances by two, a lone quote stops the run. The last entry is the
greedy (maximal) extent. -/
def qSteps : List Char → List Nat
  | [] => [0]
  | c :: rest =>
    if c = '"' then
      match rest with
      | c2 :: rest2 => if c2 = '"' then 0 :: (qSteps rest2).map (fun r => r + 2) else [0]
      | [] => [0]
    else 0 :: (qSteps rest).map (fun r => r + 1)

/-- Try `f` at `n, n-1, ..., 0` and return the first success: the
backtracking order of a greedy quantifier. -/
def firstSome (f : Nat → Option α) : Nat → Option α
  | 0 => f 0
  | n + 1 =>
    match f (n + 1) with
    | some x => some x
    | none => firstSome f n

/-- Try `f` on each element in order and return the first success. -/
def tryEach (f : β → Option α) : List β → Option α
  | [] => none
  | b :: rest =>
    match f b with
    | some x => some x
    | none => tryEach f rest

/-- A match result: number of characters consumed, the quoted-content group
(group 1) and the unquoted group (group 2). -/
def MatchRes : Type := Nat × Option (List Char) × Option (List Char)

/-- The trailing `\s* (?:,|$)` of the pattern, tried at `rest` after `a + b`
characters have been consumed: greedy whitespace first, then a comma (which
is consumed) or end of line. -/
def matchTail (ab : Nat) (g1 g2 : Option (List Char)) (rest : List Char) : Option MatchRes :=
  firstSome (fun c =>
      match rest.drop c with
      | ',' :: _ => some (ab + c + 1, g1, g2)
      | [] => some (ab + c, g1, g2)
      | _ => none)
    (wsRun rest)

/-- The quoted alternative `"((?:[^"]|"")*)"` followed by the pattern tail,
starting after `a` consumed whitespace characters. Stop positions of the
content subexpression are tried longest first. -/
def matchQuoted (u : List Char) (a : Nat) : Option MatchRes :=
  match u with
  | '"' :: area =>
    tryEach (fun r =>
        match area.drop r with
        | '"' :: rest => matchTail (a + 1 + r + 1) (some (area.take r)) none rest
        | _ => none)
      (qSteps area).reverse
  | _ => none

/-- The unquoted alternative `([^",]*)` followed by the pattern tail,
starting after `a` consumed whitespace characters; the greedy extent is
tried first. -/
def matchUnquoted (u : List Char) (a : Nat) : Option MatchRes :=
  firstSome (fun b => matchTail (a + b) none (some (u.take b)) (u.drop b))
    (u.takeWhile (fun c => !(c = '"' || c = ','))).length

/-- One attempt of the whole pattern at the start of `t`: greedy leading
whitespace (longest first), then the quoted alternative, then the unquoted
alternative. -/
def matchFrom (t : List Char) : Option MatchRes :=
  firstSome (fun a =>
      match matchQuoted (t.drop a) a with
      | some res => some res
      | none => matchUnquoted (t.drop a) a)
    (wsRun t)

/-- The `finditer` scan: if the pattern matches here, yield the groups and
continue after the consumed text (an empty match can only occur at end of
line, after which the scan position moves past the end and stops); if it
does not match, move one character forward without yielding. Fuel is the
line length plus one, which bounds the number of yields since every
non-final match consumes at least one character. -/
def tokAux : Nat → List Char → List (Option (List Char) × Option (List Char))
  | 0, _ => []
  | fuel + 1, t =>
    match matchFrom t with
    | some (k, g1, g2) =>
      if k = 0 then [(g1, g2)]
      else (g1, g2) :: tokAux fuel (t.drop k)
    | none =>
      match t with
      | [] => []
      | _ :: rest => tokAux fuel rest

/-- `val = m.group(1) or m.group(2) or ""`: Python `or` takes the first
truthy (nonempty, non-`None`) operand. -/
def pyOrGroups (g1 g2 : Option (List Char)) : List Char :=
  let s1 := g1.getD []
  if s1 = [] then g2.getD [] else s1

/-- `val.replace(chr(34) + chr(34), chr(34))`: collapse each doubled double
quote, scanning left to right without overlap. -/
def replaceQQ : List Char → List Char
  | '"' :: '"' :: rest => '"' :: replaceQQ rest
  | c :: rest => c :: replaceQQ rest
  | [] => []

/-- The per-match value pipeline of `read_csv` (lines 96-100): group choice,
quote collapsing, whitespace strip, then type inference. -/
def processField (g : Option (List Char) × Option (List Char)) : Value :=
  convert_value (stripPy (replaceQQ (pyOrGroups g.1 g.2)))

/-- The tokenizer applied to one (already line-terminator-stripped) line:
the full `for m in pattern.finditer(line)` loop of `read_csv`. -/
def tokenizeLine (l : List Char) : List Value :=
  (tokAux (l.length + 1) l).map processField

example : tokenizeLine (str "a,b") = [Value.vStr (str "a"), Value.vStr (str "b"), Value.vStr []] := by decide
example : tokenizeLine (str "a") = [Value.vStr (str "a"), Value.vStr []] := by decide
example : tokenizeLine (str "a,") = [Value.vStr (str "a"), Value.vStr []] := by decide
example : tokenizeLine (str ",") = [Value.vStr [], Value.vStr []] := by decide
example : tokenizeLine (str "a,,b") = [Value.vStr (str "a"), Value.vStr [], Value.vStr (str "b"), Value.vStr []] := by decide
example : tokenizeLine (str "\" a \"") = [Value.vStr (str "a"), Value.vStr []] := by decide
example : tokenizeLine (str "\"wor\"\"ld\"") = [Value.vStr (str "wor\"ld"), Value.vStr []] := by decide
example : tokenizeLine (str "a;b") = [Value.vStr (str "a;b"), Value.vStr []] := by decide
example : tokenizeLine (str "  a  ") = [Value.vStr (str "a"), Value.vStr []] := by decide
example : tokenizeLine (str "\"x\",y") = [Value.vStr (str "x"), Value.vStr (str "y"), Value.vStr []] := by decide
example : tokenizeLine (str "") = [Value.vStr []] := by decide
example : tokenizeLine (str "\"") = [Value.vStr []] := by decide
example : tokenizeLine (str "a,\"b,c\",d") = [Value.vStr (str "a"), Value.vStr (str "b,c"), Value.vStr (str "d"), Value.vStr []] := by decide
example : tokenizeLine (str "  \"hi\"  ") = [Value.vStr (str "hi"), Value.vStr []] := by decide
example : tokenizeLine (str "1,2.5") = [Value.vInt 1, Value.vFloat (PyFloat.finite (mkRat 5 2)), Value.vStr []] := by decide

/-!
## The columnar store and Python dict operations

A Python `dict` is modelled as an insertion-ordered association list.
Lookups and updates locate the first key equal (by Python `==`, i.e. `pyEq`)
to the requested key; dicts built by Python code have pairwise-un-equal keys.
Note that header fields go through `convert_value` before being used as
column names, so column keys are `Value`s, not bare strings.
-/

/-- Errors surfaced by the modelled Python code. `nameError` stands for the
`UnboundLocalError` raised when `read_csv` reads `header` before assigning
it; `attributeError` for `DataFrame.__init__` calling `.keys()` on `None`. -/
inductive PyErr where
  | nameError
  | attributeError
  | keyError
  | indexError
  deriving DecidableEq, Repr

/-- An insertion-ordered Python dict with `Value` keys. -/
abbrev Dict (α : Type) : Type := List (Value × α)

/-- `d[k]` lookup: the first entry whose key compares `==` to `k`, if any. -/
def pyDictGet (d : Dict α) (k : Value) : Option α :=
  match d.find? (fun e => pyEq e.1 k) with
  | some e => some e.2
  | none => none

/-- `d[k] = v`: replace the value of the first entry whose key compares `==`
to `k` (the stored key object is kept), or append a new entry at the end. -/
def pyDictSet (d : Dict α) (k : Value) (v : α) : Dict α :=
  match d with
  | [] => [(k, v)]
  | e :: rest => if pyEq e.1 k then (e.1, v) :: rest else e :: pyDictSet rest k v

/-- `k in d` membership test. -/
def pyMem (k : Value) (d : Dict α) : Bool :=
  d.any (fun e => pyEq e.1 k)

/-- The columnar store: `DataFrame.__init__` keeps the mapping, the key list
and the number of rows; the key list and the row count are functions of the
mapping, so only the mapping is stored. -/
structure DataFrame where
  data : Dict (List Value)
  deriving DecidableEq, Repr

/-- `self.columns = list(data.keys())`. -/
def DataFrame.columns (df : DataFrame) : List Value :=
  df.data.map Prod.fst

/-- `self.num_rows = len(next(iter(data.values()))) if data else 0`: the
length of the first column, or zero for an empty mapping. -/
def DataFrame.num_rows (df : DataFrame) : Nat :=
  match df.data with
  | [] => 0
  | e :: _ => e.2.length

/-!
## `read_csv`

The file-reading loop (lines 88-109): lines are enumerated by physical
index, stripped of trailing line terminators, empty lines are skipped;
line index 0 initialises `header` and `columns`, all later lines append
`zip(header, values)` into `columns`. If the physical first line was empty,
`header` is never assigned and using it raises (`nameError` here); if no
line was non-empty, `columns` is still `None` and `DataFrame(None)` raises
`AttributeError` inside `__init__`.
-/

/-- `line.rstrip(chr(10) + chr(13))`: drop trailing newline and carriage
return characters. -/
def lineRstrip (l : List Char) : List Char :=
  (l.reverse.dropWhile (fun c => c = '\n' || c = '\r')).reverse

/-- `columns = dict((h, []) for h in header)` as written with a dict
comprehension: repeated (Python-equal) header names collapse to a single
entry. -/
def colsFromHeader (header : List Value) : Dict (List Value) :=
  header.foldl (fun d h => pyDictSet d h ([] : List Value)) []

/-- `for h, v in zip(header, values): columns[h].append(v)`: each pair
appends to the (unique) column entry for `h`; a missing key would raise
`KeyError`. -/
def appendLine (cols : Dict (List Value)) (header values : List Value) : Option (Dict (List Value)) :=
  (header.zip values).foldlM
    (fun cs hv =>
      match pyDictGet cs hv.1 with
      | some cur => some (pyDictSet cs hv.1 (cur ++ [hv.2]))
      | none => none)
    cols

/-- The enumerated line loop of `read_csv`; the state is `None` before line
index 0 has been processed, and `(header, columns)` afterwards. -/
def readLoop : Option (List Value × Dict (List Value)) → Nat → List (List Char) →
    Except PyErr (Option (List Value × Dict (List Value)))
  | st, _, [] => Except.ok st
  | st, i, l :: rest =>
    let line := lineRstrip l
    if line = [] then readLoop st (i + 1) rest
    else
      let values := tokenizeLine line
      if i = 0 then readLoop (some (values, colsFromHeader values)) (i + 1) rest
      else
        match st with
        | none => Except.error PyErr.nameError
        | some hc =>
          match appendLine hc.2 hc.1 values with
          | some cols2 => readLoop (some (hc.1, cols2)) (i + 1) rest
          | none => Except.error PyErr.keyError

set_option linter.unusedVariables false in
/-- Embedding of `read_csv` (lines 72-109). The `sep` parameter is accepted
but — exactly as in the source, whose compiled pattern hard-codes the comma —
never used. -/
def read_csv (lines : List (List Char)) (sep : List Char) : Except PyErr DataFrame :=
  match readLoop none 0 lines with
  | Except.error e => Except.error e
  | Except.ok none => Except.error PyErr.attributeError
  | Except.ok (some hc) => Except.ok ⟨hc.2⟩

instance instDecEqExceptDf : DecidableEq (Except PyErr DataFrame) := fun a b =>
  match a, b with
  | Except.ok x, Except.ok y =>
    if h : x = y then isTrue (by rw [h]) else isFalse (fun hh => h (by injection hh))
  | Except.error x, Except.error y =>
    if h : x = y then isTrue (by rw [h]) else isFalse (fun hh => h (by injection hh))
  | Except.ok _, Except.error _ => isFalse (fun hh => by cases hh)
  | Except.error _, Except.ok _ => isFalse (fun hh => by cases hh)

example : read_csv [str "a,b", str "1,2.5"] (str ",")
    = Except.ok ⟨[(Value.vStr (str "a"), [Value.vInt 1]),
        (Value.vStr (str "b"), [Value.vFloat (PyFloat.finite (mkRat 5 2))]),
        (Value.vStr [], [Value.vStr []])]⟩ := by decide

example : read_csv [] (str ",") = Except.error PyErr.attributeError := by decide
example : read_csv [str "", str "a,b"] (str ",") = Except.error PyErr.nameError := by decide

/-!
## Table operations

`filter`, `select` and `group_by` (lines 25-49), expressed with the same
dict primitives the Python code uses. Row dicts are association lists in
column order; list indexing out of range is `IndexError`, modelled by
`Option`.
-/

/-- `row = dict((col, self.data[col][i]) for col in self.columns)`:
materialise row `i`. Fails when a column is shorter than `i + 1`. -/
def rowAt (df : DataFrame) (i : Nat) : Option (Dict Value) :=
  df.data.foldrM
    (fun cv acc =>
      match cv.2.get? i with
      | some v => some ((cv.1, v) :: acc)
      | none => none)
    []

/-- `dict((col, []) for col in self.columns)`: the fresh accumulator used by
`filter` and by each new `group_by` group. -/
def freshSub (df : DataFrame) : Dict (List Value) :=
  colsFromHeader df.columns

/-- One step of the per-column append loop of `filter` and `group_by`:
`target[col].append(self.data[col][i])` for column name `c` — look up the
accumulator entry and the data column (`KeyError` when absent), index the
column (`IndexError` when short), and store the extended list. -/
def rowStep (df : DataFrame) (i : Nat) (s : Dict (List Value)) (c : Value) :
    Option (Dict (List Value)) :=
  match pyDictGet s c, pyDictGet df.data c with
  | some cur, some vs =>
    match vs.get? i with
    | some v => some (pyDictSet s c (cur ++ [v]))
    | none => none
  | _, _ => none

/-- `for col in self.columns: target[col].append(self.data[col][i])`: append
row `i` of every column into the accumulator dict. -/
def appendRowInto (df : DataFrame) (sub : Dict (List Value)) (i : Nat) : Option (Dict (List Value)) :=
  df.columns.foldlM (rowStep df i) sub

/-- One iteration of the `filter` row loop: materialise row `i`, test the
caller's predicate, and append the row's values into the accumulator when it
holds. -/
def filterStep (df : DataFrame) (f : Dict Value → Bool) (acc : Dict (List Value)) (i : Nat) :
    Option (Dict (List Value)) :=
  match rowAt df i with
  | some row => if f row then appendRowInto df acc i else some acc
  | none => none

/-- Embedding of `DataFrame.filter` (lines 25-33): one pass over the row
indices, appending the columns of each row on which the predicate holds. -/
def DataFrame.filter (df : DataFrame) (f : Dict Value → Bool) : Option DataFrame :=
  match (List.range df.num_rows).foldlM (filterStep df f) (freshSub df) with
  | some d => some ⟨d⟩
  | none => none

/-- One step of the `select` dict comprehension: look the requested column
up (`KeyError` when absent) and store it. -/
def selectStep (df : DataFrame) (acc : Dict (List Value)) (c : Value) :
    Option (Dict (List Value)) :=
  match pyDictGet df.data c with
  | some vs => some (pyDictSet acc c vs)
  | none => none

/-- Embedding of `DataFrame.select` (lines 35-38): a dict comprehension over
the requested names; a missing name raises `KeyError` (`none` here). -/
def DataFrame.select (df : DataFrame) (cols : List Value) : Option DataFrame :=
  match cols.foldlM (selectStep df) ([] : Dict (List Value)) with
  | some d => some ⟨d⟩
  | none => none

/-- One iteration of the `group_by` loop (lines 43-48) for key `key` and row
`i`: `if key not in groups: groups[key] = fresh` followed by appending row
`i` into `groups[key]`. The membership test and the subsequent `groups[key]`
dict accesses locate the first entry whose key is `==`-equal to `key` —
except that CPython's dict lookup also matches the stored key by identity,
which is what finds a just-inserted `nan` key; locating the first `==`-equal
entry, or otherwise the entry just appended, reproduces both cases. -/
def groupIns (df : DataFrame) (i : Nat) :
    Dict (Dict (List Value)) → Value → Option (Dict (Dict (List Value)))
  | [], key =>
    match appendRowInto df (freshSub df) i with
    | some s => some [(key, s)]
    | none => none
  | g :: rest, key =>
    if pyEq g.1 key then
      match appendRowInto df g.2 i with
      | some s => some ((g.1, s) :: rest)
      | none => none
    else
      match groupIns df i rest key with
      | some gs => some (g :: gs)
      | none => none

/-- One iteration of the `group_by` row loop: fetch
`key = self.data[group_col][i]` (failing on a missing column or a short
column) and insert row `i` into the key's group. -/
def groupStep (df : DataFrame) (gcol : Value) (gs : Dict (Dict (List Value))) (i : Nat) :
    Option (Dict (Dict (List Value))) :=
  match pyDictGet df.data gcol with
  | some gvs =>
    match gvs.get? i with
    | some key => groupIns df i gs key
    | none => none
  | none => none

/-- Embedding of `DataFrame.group_by` (lines 40-49): iterate the row
indices, inserting each row into the group of its key, then wrap every
group dict in a `DataFrame`. -/
def DataFrame.group_by (df : DataFrame) (gcol : Value) : Option (List (Value × DataFrame)) :=
  match (List.range df.num_rows).foldlM (groupStep df gcol)
      ([] : Dict (Dict (List Value))) with
  | some gs => some (gs.map (fun g => (g.1, (⟨g.2⟩ : DataFrame))))
  | none => none

example :
    DataFrame.group_by ⟨[(Value.vStr (str "a"), [Value.vInt 1, Value.vFloat (PyFloat.finite (mkRat 1 1))])]⟩
      (Value.vStr (str "a"))
    = some [(Value.vInt 1,
        ⟨[(Value.vStr (str "a"), [Value.vInt 1, Value.vFloat (PyFloat.finite (mkRat 1 1))])]⟩)] := by decide

example :
    DataFrame.group_by ⟨[(Value.vStr (str "g"), [Value.vInt 1, Value.vInt 2, Value.vInt 1, Value.vInt 3]),
        (Value.vStr (str "x"), [Value.vInt 10, Value.vInt 20, Value.vInt 30, Value.vInt 40])]⟩
      (Value.vStr (str "g"))
    = some [(Value.vInt 1, ⟨[(Value.vStr (str "g"), [Value.vInt 1, Value.vInt 1]),
          (Value.vStr (str "x"), [Value.vInt 10, Value.vInt 30])]⟩),
        (Value.vInt 2, ⟨[(Value.vStr (str "g"), [Value.vInt 2]),
          (Value.vStr (str "x"), [Value.vInt 20])]⟩),
        (Value.vInt 3, ⟨[(Value.vStr (str "g"), [Value.vInt 3]),
          (Value.vStr (str "x"), [Value.vInt 40])]⟩)] := by decide

/-- The data-line phase of `read_csv` in isolation: starting from the header
dict, fold `appendLine` over the tokenized data rows. `read_csv` on a stream
whose non-header lines are all non-empty is exactly this fold (proved
below). -/
def buildCols (header : List Value) (rows : List (List Value)) : Option (Dict (List Value)) :=
  rows.foldlM (fun cols r => appendLine cols header r) (colsFromHeader header)

/-- The values of one data row that `zip(header, values)` sends to the
column entry of key class `k`: the row values at the positions where the
header name is Python-equal to `k`. -/
def classPick (header row : List Value) (k : Value) : List Value :=
  (header.zip row).filterMap (fun hv => if pyEq hv.1 k then some hv.2 else none)

/-!
## Specification-side instrumentation of `group_by`

`group_by` stores only column values; to state partition properties the same
computation is mirrored at the level of row indices, and `group_by` is proved
equal to the projection of this index-level computation.
-/

/-- Index-level mirror of one `group_by` iteration: append row index `i` to
the first group whose key is Python-equal to `key`, or append a new group. -/
def insIdx : List (Value × List Nat) → Value → Nat → List (Value × List Nat)
  | [], k, i => [(k, [i])]
  | g :: rest, k, i =>
    if pyEq g.1 k then (g.1, g.2 ++ [i]) :: rest else g :: insIdx rest k i

/-- The sub-dict of `df` keeping, for every column, the values at the given
row indices (in the given order). -/
def subDict (df : DataFrame) (is : List Nat) : Dict (List Value) :=
  df.data.map (fun cv => (cv.1, is.filterMap (fun i => cv.2.get? i)))

/-- The sub-DataFrame of `df` at the given row indices. -/
def subAt (df : DataFrame) (is : List Nat) : DataFrame :=
  ⟨subDict df is⟩

/-- The grouping-column value at row `i` (total, with an irrelevant default
for out-of-range indices). -/
def colVal (gvs : List Value) (i : Nat) : Value :=
  (gvs.get? i).getD (Value.vStr [])

/-- The index-level `group_by`: fold `insIdx` over the first `n` row indices
of the grouping column `gvs`. -/
def gIdx (gvs : List Value) (n : Nat) : List (Value × List Nat) :=
  (List.range n).foldl (fun gs i => insIdx gs (colVal gvs i) i) []

/-- The key/value map shape shared by the accumulators of `filter` and
`group_by`: the data's own keys, each with a value computed from its
entry. -/
def mapWith (F : Value × List Value → List Value) (d : Dict (List Value)) : Dict (List Value) :=
  d.map (fun cv => (cv.1, F cv))

/-- Value transformer: what an entry's accumulator value becomes after row
`i` is appended. -/
def rowAppF (F : Value × List Value → List Value) (i : Nat) :
    Value × List Value → List Value :=
  fun cv => F cv ++ (cv.2.get? i).toList

/-- The invariant maintained by the index-level grouping fold after the
first `m` rows have been processed: the groups' index lists concatenate to a
permutation of `0..m-1`; each group is nonempty, strictly increasing and
bounded by `m`; groups are ordered by their first index; each group's key is
the column value at its first index; every index in a group carries a value
Python-equal (or identical) to the group key; and group keys are pairwise
un-equal. -/
def GInv (gvs : List Value) (m : Nat) (gs : List (Value × List Nat)) : Prop :=
  ((gs.map (fun g => g.2)).flatten).Perm (List.range m)
  ∧ (∀ g ∈ gs, g.2 ≠ [] ∧ g.2.Pairwise (fun a b => a < b) ∧ ∀ x ∈ g.2, x < m)
  ∧ (gs.map (fun g => g.2.headD 0)).Pairwise (fun a b => a < b)
  ∧ (∀ g ∈ gs, colVal gvs (g.2.headD 0) = g.1)
  ∧ (∀ g ∈ gs, ∀ x ∈ g.2, pyEq (colVal gvs x) g.1 = true ∨ colVal gvs x = g.1)
  ∧ (gs.map Prod.fst).Pairwise (fun a b => pyEq a b = false)

/-- Well-formed quoted-field content: what the subexpression `(?:[^"]|"")*`
can consume exactly — a sequence of non-quote characters and doubled
quotes. -/
inductive PairedP : List Char → Prop where
  | nil : PairedP []
  | pair (rest : List Char) : PairedP rest → PairedP ('"' :: '"' :: rest)
  | chr (c : Char) (rest : List Char) (hc : c ≠ '"') : PairedP rest → PairedP (c :: rest)

/-- The row/column alignment invariant of the spec: every column has exactly
`num_rows` values. -/
def Aligned (df : DataFrame) : Prop :=
  ∀ cv ∈ df.data, cv.2.length = df.num_rows

/-- The column keys are pairwise un-equal under Python `==` — the invariant
of every dict Python itself builds. -/
def NodupKeysP (df : DataFrame) : Prop :=
  df.data.Pairwise (fun a b => pyEq a.1 b.1 = false)

/-- Every column key is Python-equal to itself (no `nan` column names). -/
def KeysRefl (df : DataFrame) : Prop :=
  ∀ cv ∈ df.data, pyEq cv.1 cv.1 = true

/-- Spec-side definition (following the claim's wording for the Integer
rule, §4.2): the text is an optional leading sign followed by base-10
digits only — no other characters anywhere, in particular no whitespace
and no separator characters. -/
def specIntText (l : List Char) : Bool :=
  match l with
  | '+' :: rest => !rest.isEmpty && rest.all isPyDigit
  | '-' :: rest => !rest.isEmpty && rest.all isPyDigit
  | _ => !l.isEmpty && l.all isPyDigit

/-- Declarative description of a digit run with PEP 515 underscores: a
nonempty all-digit group followed by further nonempty all-digit groups each
preceded by a single underscore. -/
def DigitGroupsP (l : List Char) : Prop :=
  ∃ (g : List Char) (gs : List (List Char)), g ≠ [] ∧ (∀ c ∈ g, isPyDigit c = true)
    ∧ (∀ h ∈ gs, h ≠ [] ∧ ∀ c ∈ h, isPyDigit c = true)
    ∧ l = g ++ (gs.map (fun h => '_' :: h)).flatten

/-- Declarative description of the language of `udB` (what may follow the
first digit of a run): a possibly empty digit group, then underscore-preceded
nonempty digit groups. -/
def GroupsTailP (l : List Char) : Prop :=
  ∃ (g : List Char) (gs : List (List Char)), (∀ c ∈ g, isPyDigit c = true)
    ∧ (∀ h ∈ gs, h ≠ [] ∧ ∀ c ∈ h, isPyDigit c = true)
    ∧ l = g ++ (gs.map (fun h => '_' :: h)).flatten

/-- An optional sign, as text. -/
def SignOptP (s : List Char) : Prop :=
  s = [] ∨ s = ['+'] ∨ s = ['-']

/-- All characters are ASCII whitespace. -/
def AllWSP (w : List Char) : Prop :=
  ∀ c ∈ w, isPySpace c = true

/-- The texts accepted by Python `int()`: optional whitespace, an optional
sign, and a digit run with underscores, then optional whitespace. This is
the amended Integer rule; the spec's `specIntText` has no whitespace and no
underscores. -/
def PyIntTextP (l : List Char) : Prop :=
  ∃ w1 s d w2, AllWSP w1 ∧ SignOptP s ∧ DigitGroupsP d ∧ AllWSP w2
    ∧ l = w1 ++ s ++ d ++ w2

/-- Declarative description of an optional exponent part: nothing, or
`e`/`E`, an optional sign and a digit run. -/
def ExpTailP (r : List Char) : Prop :=
  r = [] ∨ ∃ e s d, (e = 'e' ∨ e = 'E') ∧ SignOptP s ∧ DigitGroupsP d
    ∧ r = e :: (s ++ d)

/-- Declarative description of the unsigned numeric float bodies accepted by
Python `float()`: `digits [exp]`, `digits . [digits] [exp]` or
`. digits [exp]`, with underscore digit runs. -/
def FloatNumP (l : List Char) : Prop :=
  (∃ d r, DigitGroupsP d ∧ ExpTailP r ∧ l = d ++ r)
  ∨ (∃ i f r, (i = [] ∨ DigitGroupsP i) ∧ (f = [] ∨ DigitGroupsP f)
      ∧ ¬(i = [] ∧ f = []) ∧ ExpTailP r ∧ l = i ++ '.' :: (f ++ r))

/-- The texts accepted by Python `float()`: optional whitespace, an optional
sign, and either a case-insensitive `inf`/`infinity`/`nan` spelling or a
numeric body, then optional whitespace. -/
def PyFloatTextP (l : List Char) : Prop :=
  ∃ w1 s b w2, AllWSP w1 ∧ SignOptP s
    ∧ (isInfSpelling b = true ∨ isNanSpelling b = true ∨ FloatNumP b)
    ∧ AllWSP w2 ∧ l = w1 ++ s ++ b ++ w2

/-!
## Properties of Python equality and of the dict operations
-/

/-- Canonical comparison key of a value under Python `==`: finite numbers
map to their exact rational value, strings to themselves, the two infinities
to markers; `nan` has no key (it is unequal to everything). -/
def pyKey : Value → Option (ℚ ⊕ (List Char) ⊕ Bool)
  | Value.vInt n => some (Sum.inl (n : ℚ))
  | Value.vFloat (PyFloat.finite q) => some (Sum.inl q)
  | Value.vFloat PyFloat.inf => some (Sum.inr (Sum.inr true))
  | Value.vFloat PyFloat.ninf => some (Sum.inr (Sum.inr false))
  | Value.vFloat PyFloat.nan => none
  | Value.vStr s => some (Sum.inr (Sum.inl s))

theorem intEqRat_iff_cast {a : ℤ} {q : ℚ} : intEqRat a q = true ↔ (a : ℚ) = q := by
  simp only [intEqRat, Bool.and_eq_true, decide_eq_true_eq]
  constructor
  · intro h
    exact (Rat.ext (by simp [h.2]) (by simp [h.1])).symm.symm
  · intro h
    rw [← h]
    simp

theorem key_int_float {n : ℤ} {q : ℚ} :
    pyEq (Value.vInt n) (Value.vFloat (PyFloat.finite q)) = true
      ↔ ∃ k, pyKey (Value.vInt n) = some k ∧ pyKey (Value.vFloat (PyFloat.finite q)) = some k := by
  constructor
  · intro h
    have hc : (n : ℚ) = q := intEqRat_iff_cast.mp h
    refine ⟨Sum.inl q, ?_, rfl⟩
    show some (Sum.inl (n : ℚ)) = some (Sum.inl q)
    rw [hc]
  · rintro ⟨k, hk1, hk2⟩
    have h := hk1.trans hk2.symm
    have h2 : Sum.inl (β := (List Char) ⊕ Bool) ((n : ℚ)) = Sum.inl q := by injection h
    have h3 : (n : ℚ) = q := by injection h2
    exact intEqRat_iff_cast.mpr h3

theorem key_float_int {n : ℤ} {q : ℚ} :
    pyEq (Value.vFloat (PyFloat.finite q)) (Value.vInt n) = true
      ↔ ∃ k, pyKey (Value.vFloat (PyFloat.finite q)) = some k ∧ pyKey (Value.vInt n) = some k := by
  constructor
  · intro h
    have hc : (n : ℚ) = q := intEqRat_iff_cast.mp h
    refine ⟨Sum.inl q, rfl, ?_⟩
    show some (Sum.inl (n : ℚ)) = some (Sum.inl q)
    rw [hc]
  · rintro ⟨k, hk1, hk2⟩
    have h := hk2.trans hk1.symm
    have h2 : Sum.inl (β := (List Char) ⊕ Bool) ((n : ℚ)) = Sum.inl q := by injection h
    have h3 : (n : ℚ) = q := by injection h2
    exact intEqRat_iff_cast.mpr h3

/-- Python equality holds exactly when both values have the same canonical
key. -/
theorem pyEq_iff_key {a b : Value} :
    pyEq a b = true ↔ ∃ k, pyKey a = some k ∧ pyKey b = some k := by
  rcases a with n1 | f1 | s1 <;> rcases b with n2 | f2 | s2 <;>
      (try rcases f1 with q1 | _ | _ | _) <;> (try rcases f2 with q2 | _ | _ | _) <;>
    first
    | (simp [pyEq, pyKey, PyFloat.pyBeq, eq_comm]; done)
    | exact key_int_float
    | exact key_float_int

theorem pyEq_symm (a b : Value) : pyEq a b = pyEq b a := by
  rcases h1 : pyEq a b with _ | _ <;> rcases h2 : pyEq b a with _ | _ <;> try rfl
  · obtain ⟨k, hk1, hk2⟩ := pyEq_iff_key.mp h2
    rw [(pyEq_iff_key.mpr ⟨k, hk2, hk1⟩ : pyEq a b = true)] at h1
    exact Bool.noConfusion h1
  · obtain ⟨k, hk1, hk2⟩ := pyEq_iff_key.mp h1
    rw [(pyEq_iff_key.mpr ⟨k, hk2, hk1⟩ : pyEq b a = true)] at h2
    exact Bool.noConfusion h2

theorem pyEq_trans {a b c : Value} (h1 : pyEq a b = true) (h2 : pyEq b c = true) :
    pyEq a c = true := by
  obtain ⟨k, hk1, hk2⟩ := pyEq_iff_key.mp h1
  obtain ⟨j, hj1, hj2⟩ := pyEq_iff_key.mp h2
  rw [hk2] at hj1
  injection hj1 with h
  exact pyEq_iff_key.mpr ⟨k, hk1, h ▸ hj2⟩

/-!
Key facts about `pyDictGet` / `pyDictSet`: a set of key `k` is observed by a
get of key `j` exactly according to whether `k == j`; equal keys are
interchangeable in gets.
-/

theorem pyDictGet_congr {d : Dict α} {j j2 : Value} (h : pyEq j j2 = true) :
    pyDictGet d j = pyDictGet d j2 := by
  induction d with
  | nil => rfl
  | cons e rest ih =>
    by_cases he : pyEq e.1 j = true
    · have he2 : pyEq e.1 j2 = true := pyEq_trans he h
      simp [pyDictGet, List.find?, he, he2]
    · have he2 : pyEq e.1 j2 = false := by
        rcases hx : pyEq e.1 j2 with _ | _
        · rfl
        · exact absurd (pyEq_trans hx ((pyEq_symm j j2) ▸ h)) he
      simp only [Bool.not_eq_true] at he
      simpa [pyDictGet, List.find?, he, he2] using ih

theorem pyDictGet_set_same {d : Dict α} {k j : Value} {v : α} (h : pyEq k j = true) :
    pyDictGet (pyDictSet d k v) j = some v := by
  induction d with
  | nil => simp [pyDictSet, pyDictGet, List.find?, h]
  | cons e rest ih =>
    by_cases he : pyEq e.1 k = true
    · have he2 : pyEq e.1 j = true := pyEq_trans he h
      simp [pyDictSet, pyDictGet, List.find?, he, he2]
    · have he2 : pyEq e.1 j = false := by
        rcases hx : pyEq e.1 j with _ | _
        · rfl
        · exact absurd (pyEq_trans hx (pyEq_symm k j ▸ h)) he
      simp only [Bool.not_eq_true] at he
      simpa [pyDictSet, pyDictGet, List.find?, he, he2] using ih

theorem pyDictGet_set_other {d : Dict α} {k j : Value} {v : α} (h : pyEq k j = false) :
    pyDictGet (pyDictSet d k v) j = pyDictGet d j := by
  induction d with
  | nil => simp [pyDictSet, pyDictGet, List.find?, h]
  | cons e rest ih =>
    by_cases he : pyEq e.1 k = true
    · have he2 : pyEq e.1 j = false := by
        rcases hx : pyEq e.1 j with _ | _
        · rfl
        · exact absurd (pyEq_trans (pyEq_symm e.1 k ▸ he) hx) (by simp [h])
      simp [pyDictSet, pyDictGet, List.find?, he, he2]
    · simp only [Bool.not_eq_true] at he
      by_cases he2 : pyEq e.1 j = true
      · simp [pyDictSet, pyDictGet, List.find?, he, he2]
      · simp only [Bool.not_eq_true] at he2
        simpa [pyDictSet, pyDictGet, List.find?, he, he2] using ih

theorem pyDictSet_keys_of_mem {d : Dict α} {k : Value} {v : α}
    (h : (d.find? (fun e => pyEq e.1 k)).isSome) :
    (pyDictSet d k v).map Prod.fst = d.map Prod.fst := by
  induction d with
  | nil => simp [List.find?] at h
  | cons e rest ih =>
    by_cases he : pyEq e.1 k = true
    · simp [pyDictSet, he]
    · simp only [Bool.not_eq_true] at he
      simp only [List.find?, he] at h
      simp [pyDictSet, he, ih h]

theorem pyDictGet_isSome_find {d : Dict α} {k : Value} :
    (pyDictGet d k).isSome = (d.find? (fun e => pyEq e.1 k)).isSome := by
  rcases h : d.find? (fun e => pyEq e.1 k) with _ | e <;> simp [pyDictGet, h]

theorem pyDictGet_head {k0 : Value} {v0 : α} {t : Dict α} (h : pyEq k0 k0 = true) :
    pyDictGet ((k0, v0) :: t) k0 = some v0 := by
  simp [pyDictGet, List.find?, h]

/-!
## The header/data fold of `read_csv`, characterised pointwise
-/

theorem foldl_set_nil_get (hs : List Value) (d0 : Dict (List Value)) (k : Value) :
    pyDictGet (hs.foldl (fun d h => pyDictSet d h []) d0) k
      = if hs.any (fun h => pyEq h k) then some [] else pyDictGet d0 k := by
  induction hs generalizing d0 with
  | nil => simp
  | cons h hs ih =>
    rcases hhk : pyEq h k with _ | _
    · simp only [List.foldl_cons, List.any_cons, hhk, Bool.false_or]
      rw [ih, pyDictGet_set_other hhk]
    · simp only [List.foldl_cons, List.any_cons, hhk, Bool.true_or, if_true]
      rw [ih, pyDictGet_set_same hhk]
      simp

theorem colsFromHeader_get (hs : List Value) (k : Value) :
    pyDictGet (colsFromHeader hs) k
      = if hs.any (fun h => pyEq h k) then some [] else none := by
  have := foldl_set_nil_get hs [] k
  simpa [colsFromHeader, pyDictGet, List.find?] using this

theorem foldl_set_nil_head (hs : List Value) (k0 : Value) (t : Dict (List Value)) :
    ∃ t2, hs.foldl (fun d h => pyDictSet d h []) ((k0, ([] : List Value)) :: t)
      = (k0, ([] : List Value)) :: t2 := by
  induction hs generalizing t with
  | nil => exact ⟨t, rfl⟩
  | cons h hs ih =>
    rcases hhk : pyEq k0 h with _ | _
    · simpa [pyDictSet, hhk] using ih (pyDictSet t h [])
    · simpa [pyDictSet, hhk] using ih t

theorem colsFromHeader_head (h0 : Value) (rest : List Value) :
    ∃ t2, colsFromHeader (h0 :: rest) = (h0, ([] : List Value)) :: t2 := by
  simpa [colsFromHeader, pyDictSet] using foldl_set_nil_head rest h0 []

theorem appendLine_char (hs : List Value) :
    ∀ (vs : List Value) (cols : Dict (List Value)),
      (∀ h ∈ hs, (pyDictGet cols h).isSome) →
      (∀ h ∈ hs, pyEq h h = true) →
      ∃ c2, appendLine cols hs vs = some c2
        ∧ (∀ k, pyDictGet c2 k = (pyDictGet cols k).map (fun cur => cur ++ classPick hs vs k))
        ∧ c2.map Prod.fst = cols.map Prod.fst := by
  induction hs with
  | nil =>
    intro vs cols _ _
    refine ⟨cols, rfl, fun k => ?_, rfl⟩
    simp [classPick]
  | cons h hs ih =>
    intro vs cols hpres hrefl
    cases vs with
    | nil =>
      refine ⟨cols, rfl, fun k => ?_, rfl⟩
      simp [classPick]
    | cons v vs =>
      obtain ⟨cur, hcur⟩ := Option.isSome_iff_exists.mp (hpres h (by simp))
      have hstep : appendLine cols (h :: hs) (v :: vs)
          = appendLine (pyDictSet cols h (cur ++ [v])) hs vs := by
        simp [appendLine, hcur]
      have hpres2 : ∀ h2 ∈ hs, (pyDictGet (pyDictSet cols h (cur ++ [v])) h2).isSome := by
        intro h2 hmem
        rcases hh2 : pyEq h h2 with _ | _
        · rw [pyDictGet_set_other hh2]
          exact hpres h2 (by simp [hmem])
        · rw [pyDictGet_set_same hh2]
          rfl
      obtain ⟨c2, hc2, hget, hkeys⟩ :=
        ih vs (pyDictSet cols h (cur ++ [v])) hpres2 (fun h2 hm => hrefl h2 (by simp [hm]))
      refine ⟨c2, hstep ▸ hc2, fun k => ?_, ?_⟩
      · rw [hget k]
        rcases hhk : pyEq h k with _ | _
        · rw [pyDictGet_set_other hhk]
          simp only [classPick, List.zip_cons_cons, List.filterMap_cons, hhk]
          simp [classPick]
        · rw [pyDictGet_set_same hhk]
          have hck : pyDictGet cols k = some cur := by
            rw [pyDictGet_congr (pyEq_symm k h ▸ hhk : pyEq k h = true)]
            exact hcur
          simp only [classPick, List.zip_cons_cons, List.filterMap_cons, hhk, hck]
          simp [classPick, List.append_assoc]
      · rw [hkeys]
        apply pyDictSet_keys_of_mem
        rw [← pyDictGet_isSome_find, hcur]
        rfl

theorem buildAux_char (hs : List Value) (hrefl : ∀ h ∈ hs, pyEq h h = true) :
    ∀ (rows : List (List Value)) (cols : Dict (List Value)),
      (∀ h ∈ hs, (pyDictGet cols h).isSome) →
      ∃ c2, rows.foldlM (fun cs r => appendLine cs hs r) cols = some c2
        ∧ (∀ k, pyDictGet c2 k
            = (pyDictGet cols k).map (fun cur => cur ++ (rows.map (fun r => classPick hs r k)).flatten))
        ∧ c2.map Prod.fst = cols.map Prod.fst := by
  intro rows
  induction rows with
  | nil =>
    intro cols _
    refine ⟨cols, rfl, fun k => ?_, rfl⟩
    simp
  | cons r rows ih =>
    intro cols hpres
    obtain ⟨c1, hc1, hget1, hkeys1⟩ := appendLine_char hs r cols hpres hrefl
    have hpres1 : ∀ h ∈ hs, (pyDictGet c1 h).isSome := by
      intro h hm
      rw [hget1 h]
      obtain ⟨cur, hcur⟩ := Option.isSome_iff_exists.mp (hpres h hm)
      rw [hcur]
      rfl
    obtain ⟨c2, hc2, hget2, hkeys2⟩ := ih c1 hpres1
    refine ⟨c2, ?_, fun k => ?_, hkeys2.trans hkeys1⟩
    · simpa [List.foldlM_cons, hc1] using hc2
    · rw [hget2 k, hget1 k]
      rcases hk : pyDictGet cols k with _ | cur
      · rfl
      · simp [List.append_assoc]

theorem buildCols_char (hs : List Value) (rows : List (List Value))
    (hrefl : ∀ h ∈ hs, pyEq h h = true) :
    ∃ cols, buildCols hs rows = some cols
      ∧ (∀ k, pyDictGet cols k
          = if hs.any (fun h => pyEq h k) then some ((rows.map (fun r => classPick hs r k)).flatten)
            else none)
      ∧ cols.map Prod.fst = (colsFromHeader hs).map Prod.fst := by
  have hpres : ∀ h ∈ hs, (pyDictGet (colsFromHeader hs) h).isSome := by
    intro h hm
    rw [colsFromHeader_get]
    have : hs.any (fun h2 => pyEq h2 h) = true :=
      List.any_eq_true.mpr ⟨h, hm, hrefl h hm⟩
    rw [this]
    rfl
  obtain ⟨cols, hc, hget, hkeys⟩ := buildAux_char hs hrefl rows (colsFromHeader hs) hpres
  refine ⟨cols, hc, fun k => ?_, hkeys⟩
  rw [hget k, colsFromHeader_get]
  rcases hs.any (fun h => pyEq h k) with _ | _ <;> simp

theorem classPick_length (k : Value) :
    ∀ (hs r : List Value), r.length = hs.length →
      (classPick hs r k).length = hs.countP (fun h => pyEq h k) := by
  intro hs
  induction hs with
  | nil =>
    intro r _
    simp [classPick]
  | cons h hs ih =>
    intro r hlen
    cases r with
    | nil => simp at hlen
    | cons v r =>
      simp only [List.length_cons, Nat.succ.injEq] at hlen
      rcases hhk : pyEq h k with _ | _ <;>
        simp [classPick, List.countP_cons, hhk, ← ih r hlen, classPick]

theorem join_length_const {α : Type} (c : Nat) :
    ∀ ls : List (List α), (∀ l ∈ ls, l.length = c) → ls.flatten.length = ls.length * c := by
  intro ls
  induction ls with
  | nil => simp
  | cons l ls ih =>
    intro h
    simp only [List.flatten_cons, List.length_append, List.length_cons]
    rw [h l (by simp), ih (fun x hx => h x (by simp [hx]))]
    ring

theorem readLoop_build (hdr : List Value) :
    ∀ (lines : List (List Char)) (cols : Dict (List Value)) (i : Nat), i ≠ 0 →
      (∀ l ∈ lines, lineRstrip l ≠ []) →
      readLoop (some (hdr, cols)) i lines
        = match lines.foldlM (fun cs l => appendLine cs hdr (tokenizeLine (lineRstrip l))) cols with
          | some c2 => Except.ok (some (hdr, c2))
          | none => Except.error PyErr.keyError := by
  intro lines
  induction lines with
  | nil =>
    intro cols i _ _
    rfl
  | cons l ls ih =>
    intro cols i hi hne
    have hl : lineRstrip l ≠ [] := hne l (by simp)
    rcases happ : appendLine cols hdr (tokenizeLine (lineRstrip l)) with _ | c1
    · simp [readLoop, hl, happ, List.foldlM_cons, hi]
    · rw [List.foldlM_cons, happ]
      simpa [readLoop, hl, happ, hi] using
        ih c1 (i + 1) (by omega) (fun x hx => hne x (by simp [hx]))

/-!
## The `group_by` / `filter` accumulator, characterised via `subDict`
-/

theorem pyDictGet_append_right {A B : Dict α} {k : Value}
    (h : ∀ e ∈ A, pyEq e.1 k = false) :
    pyDictGet (A ++ B) k = pyDictGet B k := by
  induction A with
  | nil => rfl
  | cons e A ih =>
    have he := h e (by simp)
    simp only [List.cons_append, pyDictGet, List.find?, he]
    exact ih (fun x hx => h x (by simp [hx]))

theorem pyDictSet_append_right {A B : Dict α} {k : Value} {v : α}
    (h : ∀ e ∈ A, pyEq e.1 k = false) :
    pyDictSet (A ++ B) k v = A ++ pyDictSet B k v := by
  induction A with
  | nil => rfl
  | cons e A ih =>
    have he := h e (by simp)
    simp only [List.cons_append, pyDictSet, he, Bool.false_eq_true, if_false]
    exact congrArg (List.cons e) (ih (fun x hx => h x (by simp [hx])))

theorem pyDictSet_append_new {d : Dict α} {k : Value} {v : α}
    (h : ∀ e ∈ d, pyEq e.1 k = false) :
    pyDictSet d k v = d ++ [(k, v)] := by
  induction d with
  | nil => rfl
  | cons e d ih =>
    have he := h e (by simp)
    simp only [pyDictSet, he, Bool.false_eq_true, if_false, List.cons_append]
    exact congrArg (List.cons e) (ih (fun x hx => h x (by simp [hx])))

theorem colsFromHeader_nodup (ks : List Value)
    (hnd : ks.Pairwise (fun a b => pyEq a b = false)) :
    colsFromHeader ks = ks.map (fun k => (k, ([] : List Value))) := by
  suffices h : ∀ (ks : List Value) (d0 : Dict (List Value)),
      ks.Pairwise (fun a b => pyEq a b = false) →
      (∀ k ∈ ks, ∀ e ∈ d0, pyEq e.1 k = false) →
      ks.foldl (fun d h => pyDictSet d h []) d0 = d0 ++ ks.map (fun k => (k, ([] : List Value))) by
    simpa [colsFromHeader] using h ks [] hnd (by simp)
  intro ks
  induction ks with
  | nil =>
    intro d0 _ _
    simp
  | cons k ks ih =>
    intro d0 hnd hd0
    have hcond : ∀ k2 ∈ ks, ∀ e ∈ d0 ++ [(k, ([] : List Value))], pyEq e.1 k2 = false := by
      intro k2 hk2 e he
      rcases List.mem_append.mp he with he2 | he2
      · exact hd0 k2 (by simp [hk2]) e he2
      · have he3 : e = (k, ([] : List Value)) := by simpa using he2
        rw [he3]
        exact (List.pairwise_cons.mp hnd).1 k2 hk2
    simp only [List.foldl_cons, List.map_cons]
    rw [pyDictSet_append_new (hd0 k (by simp))]
    rw [ih (d0 ++ [(k, [])]) (List.pairwise_cons.mp hnd).2 hcond]
    simp

theorem get_eq_of_lt {l : List α} {i : Nat} (h : i < l.length) :
    ∃ v, l.get? i = some v := by
  rcases hv : l.get? i with _ | v
  · rw [List.get?_eq_none] at hv
    omega
  · exact ⟨v, rfl⟩

/-- The row-append loop of `filter` / `group_by` on an accumulator shaped
like the data with transformed values: every column's entry receives the
column's value at row `i`. -/
theorem appendRowInto_map (df : DataFrame) (i : Nat)
    (hnd : NodupKeysP df) (hkr : KeysRefl df)
    (hi : ∀ cv ∈ df.data, i < cv.2.length)
    (F : Value × List Value → List Value) :
    appendRowInto df (mapWith F df.data) i = some (mapWith (rowAppF F i) df.data) := by
  suffices h : ∀ (B A : Dict (List Value)), df.data = A ++ B →
      (B.map Prod.fst).foldlM (rowStep df i) (mapWith (rowAppF F i) A ++ mapWith F B)
      = some (mapWith (rowAppF F i) A ++ mapWith (rowAppF F i) B) by
    have h2 := h df.data [] rfl
    simp only [mapWith, List.map_nil, List.nil_append, List.append_nil] at h2
    have hcols : df.columns = df.data.map Prod.fst := rfl
    rw [appendRowInto, hcols]
    exact h2
  intro B
  induction B with
  | nil =>
    intro A _
    simp [mapWith]
  | cons b B ih =>
    intro A hsplit
    have hbmem : b ∈ df.data := by
      rw [hsplit]
      simp
    have hpw : (A ++ b :: B).Pairwise (fun x y => pyEq x.1 y.1 = false) := by
      have h0 := hnd
      unfold NodupKeysP at h0
      rwa [hsplit] at h0
    have hcross : ∀ e ∈ A, pyEq e.1 b.1 = false := by
      intro e he
      exact (List.pairwise_append.mp hpw).2.2 e he b (by simp)
    have hcrossF : ∀ e ∈ mapWith (rowAppF F i) A, pyEq e.1 b.1 = false := by
      intro e he
      obtain ⟨cv, hcv, hcve⟩ := List.mem_map.mp he
      rw [← hcve]
      exact hcross cv hcv
    have hbrefl : pyEq b.1 b.1 = true := hkr b hbmem
    obtain ⟨v, hv⟩ := get_eq_of_lt (hi b hbmem)
    have hmapb : mapWith F (b :: B) = (b.1, F b) :: mapWith F B := rfl
    have hget1 : pyDictGet (mapWith (rowAppF F i) A ++ mapWith F (b :: B)) b.1
        = some (F b) := by
      rw [hmapb, pyDictGet_append_right hcrossF]
      exact pyDictGet_head hbrefl
    have hgetdata : pyDictGet df.data b.1 = some b.2 := by
      rw [hsplit, pyDictGet_append_right hcross]
      rcases b with ⟨b1, b2⟩
      exact pyDictGet_head hbrefl
    have hentry : ((b.1, F b ++ [v]) : Value × List Value) = (b.1, rowAppF F i b) := by
      unfold rowAppF
      rw [hv]
      rfl
    have hset : pyDictSet (mapWith (rowAppF F i) A ++ mapWith F (b :: B)) b.1 (F b ++ [v])
        = mapWith (rowAppF F i) (A ++ [b]) ++ mapWith F B := by
      rw [hmapb, pyDictSet_append_right hcrossF]
      simp only [pyDictSet, hbrefl, if_true]
      rw [hentry]
      simp [mapWith]
    have hstep : rowStep df i (mapWith (rowAppF F i) A ++ mapWith F (b :: B)) b.1
        = some (mapWith (rowAppF F i) (A ++ [b]) ++ mapWith F B) := by
      unfold rowStep
      rw [hget1, hgetdata]
      change (match b.2.get? i with
          | some v =>
            some (pyDictSet (mapWith (rowAppF F i) A ++ mapWith F (b :: B)) b.1 (F b ++ [v]))
          | none => none)
        = some (mapWith (rowAppF F i) (A ++ [b]) ++ mapWith F B)
      rw [hv]
      exact congrArg some hset
    have hBfst : (b :: B).map Prod.fst = b.1 :: B.map Prod.fst := rfl
    rw [hBfst, List.foldlM_cons, hstep]
    have hrec := ih (A ++ [b]) (by rw [hsplit]; simp)
    simp only [Option.bind_eq_bind, Option.some_bind]
    have hfinal : mapWith (rowAppF F i) (A ++ [b]) ++ mapWith (rowAppF F i) B
        = mapWith (rowAppF F i) A ++ mapWith (rowAppF F i) (b :: B) := by
      simp [mapWith]
    rw [hrec, hfinal]

theorem subDict_as_mapWith (df : DataFrame) (is : List Nat) :
    subDict df is = mapWith (fun cv => is.filterMap (fun i => cv.2.get? i)) df.data := rfl

theorem appendRowInto_subDict (df : DataFrame) (i : Nat)
    (hnd : NodupKeysP df) (hkr : KeysRefl df)
    (hi : ∀ cv ∈ df.data, i < cv.2.length) (is : List Nat) :
    appendRowInto df (subDict df is) i = some (subDict df (is ++ [i])) := by
  rw [subDict_as_mapWith,
    appendRowInto_map df i hnd hkr hi (fun cv => is.filterMap (fun j => cv.2.get? j))]
  apply congrArg some
  unfold subDict mapWith rowAppF
  apply List.map_congr_left
  intro cv _
  apply congrArg (Prod.mk cv.1)
  rw [List.filterMap_append]
  apply congrArg (fun t => is.filterMap (fun j => cv.2.get? j) ++ t)
  rcases h : cv.2.get? i with _ | v <;> rw [List.filterMap_cons, h] <;> try rfl

theorem freshSub_eq (df : DataFrame) (hnd : NodupKeysP df) :
    freshSub df = subDict df [] := by
  have hks : df.columns.Pairwise (fun a b => pyEq a b = false) := by
    have := hnd
    unfold NodupKeysP at this
    exact List.pairwise_map.mpr this
  rw [freshSub, colsFromHeader_nodup df.columns hks]
  unfold subDict DataFrame.columns
  rw [List.map_map]
  rfl

theorem groupIns_proj (df : DataFrame) (i : Nat)
    (hnd : NodupKeysP df) (hkr : KeysRefl df)
    (hi : ∀ cv ∈ df.data, i < cv.2.length) :
    ∀ (gidx : List (Value × List Nat)) (key : Value),
      groupIns df i (gidx.map (fun g => (g.1, subDict df g.2))) key
        = some ((insIdx gidx key i).map (fun g => (g.1, subDict df g.2))) := by
  intro gidx
  induction gidx with
  | nil =>
    intro key
    simp only [List.map_nil, groupIns]
    rw [freshSub_eq df hnd, appendRowInto_subDict df i hnd hkr hi []]
    try rfl
  | cons g rest ih =>
    intro key
    simp only [List.map_cons, groupIns]
    rcases hgk : pyEq g.1 key with _ | _
    · simp only [Bool.false_eq_true, if_false]
      rw [ih key]
      simp only [insIdx, hgk, Bool.false_eq_true, if_false, List.map_cons]
    · simp only [if_true]
      rw [appendRowInto_subDict df i hnd hkr hi g.2]
      simp only [insIdx, hgk, if_true, List.map_cons]

theorem group_by_eq (df : DataFrame) (gcol : Value) (gvs : List Value)
    (hnd : NodupKeysP df) (hkr : KeysRefl df) (hal : Aligned df)
    (hg : pyDictGet df.data gcol = some gvs) :
    df.group_by gcol
      = some ((gIdx gvs df.num_rows).map (fun g => (g.1, subAt df g.2))) := by
  have hmem : ∃ e ∈ df.data, e.2 = gvs := by
    unfold pyDictGet at hg
    rcases hf : df.data.find? (fun e => pyEq e.1 gcol) with _ | e
    · rw [hf] at hg
      cases hg
    · rw [hf] at hg
      exact ⟨e, List.mem_of_find?_eq_some hf, Option.some.inj hg⟩
  obtain ⟨ge, hgemem, hgev⟩ := hmem
  have hglen : gvs.length = df.num_rows := by
    rw [← hgev]
    exact hal ge hgemem
  have hfold : ∀ (idxs : List Nat), (∀ i ∈ idxs, i < df.num_rows) →
      ∀ gidx : List (Value × List Nat),
      idxs.foldlM (groupStep df gcol) (gidx.map (fun g => (g.1, subDict df g.2)))
        = some ((idxs.foldl (fun gs i => insIdx gs (colVal gvs i) i) gidx).map
            (fun g => (g.1, subDict df g.2))) := by
    intro idxs
    induction idxs with
    | nil =>
      intro _ gidx
      rfl
    | cons i idxs ih =>
      intro hlt gidx
      have hilt : i < gvs.length := by
        rw [hglen]
        exact hlt i (by simp)
      obtain ⟨key, hkey⟩ := get_eq_of_lt hilt
      have hcv : colVal gvs i = key := by
        unfold colVal
        rw [hkey]
        rfl
      have hint : ∀ cv ∈ df.data, i < cv.2.length := by
        intro cv hcvv
        rw [hal cv hcvv]
        exact hlt i (by simp)
      have hstep : groupStep df gcol (gidx.map (fun g => (g.1, subDict df g.2))) i
          = some ((insIdx gidx key i).map (fun g => (g.1, subDict df g.2))) := by
        unfold groupStep
        rw [hg]
        change (match gvs.get? i with
          | some key2 =>
            groupIns df i (gidx.map (fun (g : Value × List Nat) => (g.1, subDict df g.2))) key2
          | none => none) = _
        rw [hkey]
        exact groupIns_proj df i hnd hkr hint gidx key
      rw [List.foldlM_cons, hstep]
      simp only [Option.bind_eq_bind, Option.some_bind, List.foldl_cons, hcv]
      exact ih (fun j hj => hlt j (by simp [hj])) (insIdx gidx key i)
  have h0 := hfold (List.range df.num_rows) (fun i hi => List.mem_range.mp hi) []
  simp only [List.map_nil] at h0
  unfold DataFrame.group_by
  rw [h0]
  change some (List.map (fun g => (g.1, (⟨g.2⟩ : DataFrame)))
      (List.map (fun g => (g.1, subDict df g.2))
        (List.foldl (fun gs i => insIdx gs (colVal gvs i) i) [] (List.range df.num_rows))))
    = some (List.map (fun g => (g.1, subAt df g.2)) (gIdx gvs df.num_rows))
  rw [List.map_map]
  rfl

/-!
## Invariants of the index-level grouping
-/

theorem headD_append_left {l t : List Nat} {d : Nat} (h : l ≠ []) :
    (l ++ t).headD d = l.headD d := by
  cases l with
  | nil => exact absurd rfl h
  | cons a l => rfl

theorem headD_mem {l : List Nat} {d : Nat} (h : l ≠ []) : l.headD d ∈ l := by
  cases l with
  | nil => exact absurd rfl h
  | cons a l => simp

/-- `insIdx` either extends, in place, the first group whose key matches, or
appends a brand-new group after verifying no key matches. -/
theorem insIdx_cases (gs : List (Value × List Nat)) (k : Value) (i : Nat) :
    (∃ A g B, gs = A ++ g :: B ∧ (∀ a ∈ A, pyEq a.1 k = false) ∧ pyEq g.1 k = true
        ∧ insIdx gs k i = A ++ (g.1, g.2 ++ [i]) :: B)
    ∨ ((∀ g ∈ gs, pyEq g.1 k = false) ∧ insIdx gs k i = gs ++ [(k, [i])]) := by
  induction gs with
  | nil =>
    right
    exact ⟨by simp, rfl⟩
  | cons g rest ih =>
    rcases hgk : pyEq g.1 k with _ | _
    · rcases ih with ⟨A, g2, B, hsplit, hA, hg2, hins⟩ | ⟨hall, hins⟩
      · left
        refine ⟨g :: A, g2, B, by rw [hsplit]; rfl, ?_, hg2, ?_⟩
        · intro a ha
          rcases List.mem_cons.mp ha with rfl | ha2
          · exact hgk
          · exact hA a ha2
        · show insIdx (g :: rest) k i = g :: (A ++ (g2.1, g2.2 ++ [i]) :: B)
          simp only [insIdx, hgk, Bool.false_eq_true, if_false]
          rw [hins]
      · right
        refine ⟨?_, ?_⟩
        · intro g2 hg2
          rcases List.mem_cons.mp hg2 with rfl | hg3
          · exact hgk
          · exact hall g2 hg3
        · show insIdx (g :: rest) k i = g :: (rest ++ [(k, [i])])
          simp only [insIdx, hgk, Bool.false_eq_true, if_false]
          rw [hins]
    · left
      refine ⟨[], g, rest, by simp, by simp, hgk, ?_⟩
      simp only [insIdx, hgk, if_true, List.nil_append]

theorem insIdx_flatten_perm (gs : List (Value × List Nat)) (k : Value) (i : Nat) :
    (((insIdx gs k i).map (fun g => g.2)).flatten).Perm
      ((gs.map (fun g => g.2)).flatten ++ [i]) := by
  rcases insIdx_cases gs k i with ⟨A, g, B, hsplit, _, _, hins⟩ | ⟨_, hins⟩
  · rw [hins, hsplit]
    simp only [List.map_append, List.map_cons, List.flatten_append, List.flatten_cons,
      List.append_assoc]
    exact List.Perm.append_left _ (List.Perm.append_left _ List.perm_append_comm)
  · rw [hins]
    simp

theorem gInv_zero (gvs : List Value) : GInv gvs 0 [] := by
  refine ⟨by simp, by simp, by simp, by simp, by simp, by simp⟩

theorem gInv_step (gvs : List Value) (m : Nat) (gs : List (Value × List Nat))
    (hinv : GInv gvs m gs) : GInv gvs (m + 1) (insIdx gs (colVal gvs m) m) := by
  obtain ⟨hperm, hgrp, hheads, hkeyhead, hkeyel, hkeys⟩ := hinv
  have hmemgs : ∀ g2 ∈ insIdx gs (colVal gvs m) m,
      g2 ∈ gs ∨ (∃ g ∈ gs, pyEq g.1 (colVal gvs m) = true ∧ g2 = (g.1, g.2 ++ [m]))
        ∨ g2 = (colVal gvs m, [m]) := by
    intro g2 hg2
    rcases insIdx_cases gs (colVal gvs m) m with ⟨A, g, B, hsplit, _, hgk, hins⟩ | ⟨_, hins⟩
    · rw [hins] at hg2
      rcases List.mem_append.mp hg2 with h1 | h2
      · exact Or.inl (by rw [hsplit]; exact List.mem_append.mpr (Or.inl h1))
      · rcases List.mem_cons.mp h2 with rfl | h3
        · exact Or.inr (Or.inl ⟨g, by rw [hsplit]; simp, hgk, rfl⟩)
        · exact Or.inl (by rw [hsplit]; simp [h3])
    · rw [hins] at hg2
      rcases List.mem_append.mp hg2 with h1 | h2
      · exact Or.inl h1
      · exact Or.inr (Or.inr (by simpa using h2))
  refine ⟨?_, ?_, ?_, ?_, ?_, ?_⟩
  · refine List.Perm.trans (insIdx_flatten_perm gs (colVal gvs m) m) ?_
    rw [List.range_succ]
    exact List.Perm.append_right [m] hperm
  · intro g2 hg2
    rcases hmemgs g2 hg2 with hold | ⟨g, hgmem, _, rfl⟩ | rfl
    · obtain ⟨hne, hsort, hbd⟩ := hgrp g2 hold
      exact ⟨hne, hsort, fun x hx => Nat.lt_succ_of_lt (hbd x hx)⟩
    · obtain ⟨hne, hsort, hbd⟩ := hgrp g hgmem
      refine ⟨by simp, ?_, ?_⟩
      · rw [List.pairwise_append]
        exact ⟨hsort, by simp, fun x hx y hy => by
          rw [List.mem_singleton.mp hy]; exact hbd x hx⟩
      · intro x hx
        rcases List.mem_append.mp hx with h1 | h2
        · exact Nat.lt_succ_of_lt (hbd x h1)
        · rw [List.mem_singleton.mp h2]
          omega
    · exact ⟨by simp, by simp, by intro x hx; rw [List.mem_singleton.mp hx]; omega⟩
  · rcases insIdx_cases gs (colVal gvs m) m with ⟨A, g, B, hsplit, _, _, hins⟩ | ⟨_, hins⟩
    · have hmap : (insIdx gs (colVal gvs m) m).map (fun g => g.2.headD 0)
          = gs.map (fun g => g.2.headD 0) := by
        rw [hins, hsplit]
        simp only [List.map_append, List.map_cons]
        have hgne : g.2 ≠ [] := (hgrp g (by rw [hsplit]; simp)).1
        rw [headD_append_left hgne]
      rw [hmap]
      exact hheads
    · have hmap : (insIdx gs (colVal gvs m) m).map (fun g => g.2.headD 0)
          = gs.map (fun g => g.2.headD 0) ++ [m] := by
        rw [hins]
        simp
      rw [hmap, List.pairwise_append]
      refine ⟨hheads, by simp, ?_⟩
      intro x hx y hy
      rw [List.mem_singleton.mp hy]
      obtain ⟨g, hgmem, hgx⟩ := List.mem_map.mp hx
      have hgne := (hgrp g hgmem).1
      have : g.2.headD 0 ∈ g.2 := headD_mem hgne
      rw [← hgx]
      exact (hgrp g hgmem).2.2 _ this
  · intro g2 hg2
    rcases hmemgs g2 hg2 with hold | ⟨g, hgmem, _, rfl⟩ | rfl
    · exact hkeyhead g2 hold
    · have hgne := (hgrp g hgmem).1
      show colVal gvs ((g.2 ++ [m]).headD 0) = g.1
      rw [headD_append_left hgne]
      exact hkeyhead g hgmem
    · rfl
  · intro g2 hg2 x hx
    rcases hmemgs g2 hg2 with hold | ⟨g, hgmem, hgk, rfl⟩ | rfl
    · exact hkeyel g2 hold x hx
    · rcases List.mem_append.mp hx with h1 | h2
      · exact hkeyel g hgmem x h1
      · rw [List.mem_singleton.mp h2]
        left
        rw [pyEq_symm]
        exact hgk
    · rcases List.mem_singleton.mp hx with rfl
      right
      rfl
  · rcases insIdx_cases gs (colVal gvs m) m with ⟨A, g, B, hsplit, _, _, hins⟩ | ⟨hall, hins⟩
    · have hmap : (insIdx gs (colVal gvs m) m).map Prod.fst = gs.map Prod.fst := by
        rw [hins, hsplit]
        simp
      rw [hmap]
      exact hkeys
    · have hmap : (insIdx gs (colVal gvs m) m).map Prod.fst
          = gs.map Prod.fst ++ [colVal gvs m] := by
        rw [hins]
        simp
      rw [hmap, List.pairwise_append]
      refine ⟨hkeys, by simp, ?_⟩
      intro x hx y hy
      rw [List.mem_singleton.mp hy]
      obtain ⟨g, hgmem, hgx⟩ := List.mem_map.mp hx
      rw [← hgx]
      exact hall g hgmem

/-- The grouping invariant holds of the full index-level grouping. -/
theorem gIdx_inv (gvs : List Value) (n : Nat) : GInv gvs n (gIdx gvs n) := by
  induction n with
  | zero => exact gInv_zero gvs
  | succ m ih =>
    have hstep : gIdx gvs (m + 1) = insIdx (gIdx gvs m) (colVal gvs m) m := by
      unfold gIdx
      rw [List.range_succ, List.foldl_append]
      rfl
    rw [hstep]
    exact gInv_step gvs m (gIdx gvs m) ih

theorem subAt_columns (df : DataFrame) (is : List Nat) :
    (subAt df is).columns = df.columns := by
  unfold subAt subDict DataFrame.columns
  rw [List.map_map]
  rfl

/-- C8: `group_by` on an aligned Table (all columns of length `num_rows`,
Python-dict keys) partitions the rows exactly. `group_by` equals the
projection of the index-level grouping `gIdx`, whose groups: retain all
original columns; are nonempty and list their row indices in original
(strictly increasing) order; appear ordered by their first occurrence, each
keyed by the column value at that first occurrence; have index lists that
concatenate to a permutation of `0 .. num_rows - 1`, pairwise disjoint and
jointly covering every row; and whose sizes sum to `num_rows`. -/
theorem c8_group_by_partition (df : DataFrame) (gcol : Value) (gvs : List Value)
    (hal : Aligned df) (hnd : NodupKeysP df) (hkr : KeysRefl df)
    (hg : pyDictGet df.data gcol = some gvs) :
    ∃ gidx : List (Value × List Nat),
      df.group_by gcol = some (gidx.map (fun g => (g.1, subAt df g.2)))
      ∧ (∀ g ∈ gidx, (subAt df g.2).columns = df.columns)
      ∧ (∀ g ∈ gidx, g.2 ≠ [] ∧ g.2.Pairwise (fun a b => a < b))
      ∧ (gidx.map (fun g => g.2.headD 0)).Pairwise (fun a b => a < b)
      ∧ (∀ g ∈ gidx, colVal gvs (g.2.headD 0) = g.1)
      ∧ ((gidx.map (fun g => g.2)).flatten).Perm (List.range df.num_rows)
      ∧ (gidx.map (fun g => g.2)).Pairwise List.Disjoint
      ∧ (∀ i, i < df.num_rows → ∃ g ∈ gidx, i ∈ g.2)
      ∧ (gidx.map (fun g => g.2.length)).sum = df.num_rows := by
  obtain ⟨hperm, hgrp, hheads, hkeyhead, _, _⟩ := gIdx_inv gvs df.num_rows
  have hnodup : ((gIdx gvs df.num_rows).map (fun g => g.2)).flatten.Nodup :=
    hperm.nodup_iff.mpr (List.nodup_range _)
  refine ⟨gIdx gvs df.num_rows,
    group_by_eq df gcol gvs hnd hkr hal hg,
    fun g _ => subAt_columns df g.2,
    fun g hgm => ⟨(hgrp g hgm).1, (hgrp g hgm).2.1⟩,
    hheads, hkeyhead, hperm,
    (List.nodup_flatten.mp hnodup).2,
    ?_, ?_⟩
  · intro i hi
    have hmem : i ∈ ((gIdx gvs df.num_rows).map (fun g => g.2)).flatten :=
      hperm.mem_iff.mpr (List.mem_range.mpr hi)
    obtain ⟨l, hl, hil⟩ := List.mem_flatten.mp hmem
    obtain ⟨g, hgm, hgl⟩ := List.mem_map.mp hl
    exact ⟨g, hgm, hgl ▸ hil⟩
  · have h1 := hperm.length_eq
    rw [List.length_flatten, List.length_range, List.map_map] at h1
    exact h1

/-- C8 witness: grouping the aligned two-column Table with grouping column
values `1, 2, 1, 3`. -/
theorem c8_group_by_partition_witness :
    ∃ gidx : List (Value × List Nat),
      DataFrame.group_by
          ⟨[(Value.vStr (str "g"), [Value.vInt 1, Value.vInt 2, Value.vInt 1, Value.vInt 3]),
            (Value.vStr (str "x"), [Value.vInt 10, Value.vInt 20, Value.vInt 30, Value.vInt 40])]⟩
          (Value.vStr (str "g"))
        = some (gidx.map (fun g => (g.1,
            subAt ⟨[(Value.vStr (str "g"), [Value.vInt 1, Value.vInt 2, Value.vInt 1, Value.vInt 3]),
              (Value.vStr (str "x"), [Value.vInt 10, Value.vInt 20, Value.vInt 30, Value.vInt 40])]⟩ g.2)))
      ∧ (∀ g ∈ gidx, (subAt ⟨[(Value.vStr (str "g"), [Value.vInt 1, Value.vInt 2, Value.vInt 1, Value.vInt 3]),
            (Value.vStr (str "x"), [Value.vInt 10, Value.vInt 20, Value.vInt 30, Value.vInt 40])]⟩ g.2).columns
          = DataFrame.columns ⟨[(Value.vStr (str "g"), [Value.vInt 1, Value.vInt 2, Value.vInt 1, Value.vInt 3]),
            (Value.vStr (str "x"), [Value.vInt 10, Value.vInt 20, Value.vInt 30, Value.vInt 40])]⟩)
      ∧ (∀ g ∈ gidx, g.2 ≠ [] ∧ g.2.Pairwise (fun a b => a < b))
      ∧ (gidx.map (fun g => g.2.headD 0)).Pairwise (fun a b => a < b)
      ∧ (∀ g ∈ gidx, colVal [Value.vInt 1, Value.vInt 2, Value.vInt 1, Value.vInt 3] (g.2.headD 0) = g.1)
      ∧ ((gidx.map (fun g => g.2)).flatten).Perm
          (List.range (DataFrame.num_rows ⟨[(Value.vStr (str "g"), [Value.vInt 1, Value.vInt 2, Value.vInt 1, Value.vInt 3]),
            (Value.vStr (str "x"), [Value.vInt 10, Value.vInt 20, Value.vInt 30, Value.vInt 40])]⟩))
      ∧ (gidx.map (fun g => g.2)).Pairwise List.Disjoint
      ∧ (∀ i, i < DataFrame.num_rows ⟨[(Value.vStr (str "g"), [Value.vInt 1, Value.vInt 2, Value.vInt 1, Value.vInt 3]),
            (Value.vStr (str "x"), [Value.vInt 10, Value.vInt 20, Value.vInt 30, Value.vInt 40])]⟩ →
          ∃ g ∈ gidx, i ∈ g.2)
      ∧ (gidx.map (fun g => g.2.length)).sum
          = DataFrame.num_rows ⟨[(Value.vStr (str "g"), [Value.vInt 1, Value.vInt 2, Value.vInt 1, Value.vInt 3]),
            (Value.vStr (str "x"), [Value.vInt 10, Value.vInt 20, Value.vInt 30, Value.vInt 40])]⟩ :=
  c8_group_by_partition
    ⟨[(Value.vStr (str "g"), [Value.vInt 1, Value.vInt 2, Value.vInt 1, Value.vInt 3]),
      (Value.vStr (str "x"), [Value.vInt 10, Value.vInt 20, Value.vInt 30, Value.vInt 40])]⟩
    (Value.vStr (str "g"))
    [Value.vInt 1, Value.vInt 2, Value.vInt 1, Value.vInt 3]
    (by unfold Aligned; decide)
    (by unfold NodupKeysP; decide)
    (by unfold KeysRefl; decide)
    (by rfl)

theorem column_length (df : DataFrame) (gcol : Value) (gvs : List Value)
    (hal : Aligned df) (hg : pyDictGet df.data gcol = some gvs) :
    gvs.length = df.num_rows := by
  unfold pyDictGet at hg
  rcases hf : df.data.find? (fun e => pyEq e.1 gcol) with _ | e
  · rw [hf] at hg
    cases hg
  · rw [hf] at hg
    rw [← Option.some.inj hg]
    exact hal e (List.mem_of_find?_eq_some hf)

theorem colVal_mem {gvs : List Value} {x : Nat} (h : x < gvs.length) :
    colVal gvs x ∈ gvs := by
  obtain ⟨v, hv⟩ := get_eq_of_lt h
  unfold colVal
  rw [hv]
  exact List.get?_mem hv

theorem gIdx_covers (gvs : List Value) (n : Nat) :
    ∀ i, i < n → ∃ g ∈ gIdx gvs n, i ∈ g.2 := by
  intro i hi
  obtain ⟨hperm, _, _, _, _, _⟩ := gIdx_inv gvs n
  have hmem : i ∈ ((gIdx gvs n).map (fun g => g.2)).flatten :=
    hperm.mem_iff.mpr (List.mem_range.mpr hi)
  obtain ⟨l, hl, hil⟩ := List.mem_flatten.mp hmem
  obtain ⟨g, hgm, hgl⟩ := List.mem_map.mp hl
  exact ⟨g, hgm, hgl ▸ hil⟩

/-- C7 (amended): `group_by` keys rows with Python `==`, which equates an
Integer and a Float of the same numeric value (`1 == 1.0`) while keeping
Text distinct from numbers. For an aligned Table whose grouping column
contains no `nan`, two rows land in the same group exactly when their
grouping values are Python-equal — so Integer 1 and Float 1.0 share one
group key, while Text `1` is a distinct key. -/
theorem c7_python_equal_group_keys (df : DataFrame) (gcol : Value) (gvs : List Value)
    (hal : Aligned df) (hnd : NodupKeysP df) (hkr : KeysRefl df)
    (hg : pyDictGet df.data gcol = some gvs)
    (hnn : ∀ v ∈ gvs, pyEq v v = true) :
    pyEq (Value.vInt 1) (Value.vFloat (PyFloat.finite (mkRat 1 1))) = true
    ∧ pyEq (Value.vInt 1) (Value.vStr (str "1")) = false
    ∧ pyEq (Value.vFloat (PyFloat.finite (mkRat 1 1))) (Value.vStr (str "1")) = false
    ∧ ∃ gidx : List (Value × List Nat),
        df.group_by gcol = some (gidx.map (fun g => (g.1, subAt df g.2)))
        ∧ ∀ i j, i < df.num_rows → j < df.num_rows →
            ((∃ g ∈ gidx, i ∈ g.2 ∧ j ∈ g.2)
              ↔ pyEq (colVal gvs i) (colVal gvs j) = true) := by
  have hglen : gvs.length = df.num_rows := column_length df gcol gvs hal hg
  obtain ⟨hperm, hgrp, _, _, hkeyel, hkeys⟩ := gIdx_inv gvs df.num_rows
  have hkeys2 : (gIdx gvs df.num_rows).Pairwise (fun g h => pyEq g.1 h.1 = false) :=
    List.pairwise_map.mp hkeys
  have hreflAt : ∀ x, x < df.num_rows → pyEq (colVal gvs x) (colVal gvs x) = true := by
    intro x hx
    exact hnn _ (colVal_mem (by omega))
  have hkeyel2 : ∀ g ∈ gIdx gvs df.num_rows, ∀ x ∈ g.2,
      pyEq (colVal gvs x) g.1 = true := by
    intro g hgm x hx
    rcases hkeyel g hgm x hx with h | h
    · exact h
    · rw [← h]
      exact hreflAt x ((hgrp g hgm).2.2 x hx)
  refine ⟨by decide, by decide, by decide, gIdx gvs df.num_rows,
    group_by_eq df gcol gvs hnd hkr hal hg, ?_⟩
  intro i j hi hj
  constructor
  · rintro ⟨g, hgm, hig, hjg⟩
    have h1 := hkeyel2 g hgm i hig
    have h2 := hkeyel2 g hgm j hjg
    exact pyEq_trans h1 ((pyEq_symm g.1 (colVal gvs j)).trans h2)
  · intro hpe
    obtain ⟨g, hgm, hig⟩ := gIdx_covers gvs df.num_rows i hi
    obtain ⟨h, hhm, hjh⟩ := gIdx_covers gvs df.num_rows j hj
    by_cases hgh : g = h
    · exact ⟨g, hgm, hig, hgh ▸ hjh⟩
    · exfalso
      have hsym : Symmetric (fun g h : Value × List Nat => pyEq g.1 h.1 = false) := by
        intro a b hab
        rw [pyEq_symm]
        exact hab
      have hfalse : pyEq g.1 h.1 = false :=
        List.Pairwise.forall hsym hkeys2 hgm hhm hgh
      have h1 : pyEq g.1 (colVal gvs i) = true :=
        (pyEq_symm g.1 (colVal gvs i)).trans (hkeyel2 g hgm i hig)
      have h2 : pyEq (colVal gvs j) h.1 = true := hkeyel2 h hhm j hjh
      have htrue : pyEq g.1 h.1 = true :=
        pyEq_trans (pyEq_trans h1 hpe) h2
      rw [htrue] at hfalse
      cases hfalse

/-- C7 witness: the single-column Table with values Integer 1, Float 1.0,
Text `1`. -/
theorem c7_python_equal_group_keys_witness :
    pyEq (Value.vInt 1) (Value.vFloat (PyFloat.finite (mkRat 1 1))) = true
    ∧ pyEq (Value.vInt 1) (Value.vStr (str "1")) = false
    ∧ pyEq (Value.vFloat (PyFloat.finite (mkRat 1 1))) (Value.vStr (str "1")) = false
    ∧ ∃ gidx : List (Value × List Nat),
        DataFrame.group_by
            ⟨[(Value.vStr (str "a"),
              [Value.vInt 1, Value.vFloat (PyFloat.finite (mkRat 1 1)), Value.vStr (str "1")])]⟩
            (Value.vStr (str "a"))
          = some (gidx.map (fun g => (g.1,
              subAt ⟨[(Value.vStr (str "a"),
                [Value.vInt 1, Value.vFloat (PyFloat.finite (mkRat 1 1)), Value.vStr (str "1")])]⟩ g.2)))
        ∧ ∀ i j, i < DataFrame.num_rows ⟨[(Value.vStr (str "a"),
              [Value.vInt 1, Value.vFloat (PyFloat.finite (mkRat 1 1)), Value.vStr (str "1")])]⟩ →
            j < DataFrame.num_rows ⟨[(Value.vStr (str "a"),
              [Value.vInt 1, Value.vFloat (PyFloat.finite (mkRat 1 1)), Value.vStr (str "1")])]⟩ →
            ((∃ g ∈ gidx, i ∈ g.2 ∧ j ∈ g.2)
              ↔ pyEq (colVal [Value.vInt 1, Value.vFloat (PyFloat.finite (mkRat 1 1)), Value.vStr (str "1")] i)
                  (colVal [Value.vInt 1, Value.vFloat (PyFloat.finite (mkRat 1 1)), Value.vStr (str "1")] j)
                  = true) :=
  c7_python_equal_group_keys
    ⟨[(Value.vStr (str "a"),
      [Value.vInt 1, Value.vFloat (PyFloat.finite (mkRat 1 1)), Value.vStr (str "1")])]⟩
    (Value.vStr (str "a"))
    [Value.vInt 1, Value.vFloat (PyFloat.finite (mkRat 1 1)), Value.vStr (str "1")]
    (by unfold Aligned; decide)
    (by unfold NodupKeysP; decide)
    (by unfold KeysRefl; decide)
    (by rfl)
    (by decide)

theorem rowAt_some (df : DataFrame) (i : Nat) (hi : ∀ cv ∈ df.data, i < cv.2.length) :
    ∃ row, rowAt df i = some row := by
  unfold rowAt
  revert hi
  induction df.data with
  | nil =>
    intro _
    exact ⟨[], rfl⟩
  | cons cv rest ih =>
    intro hi
    obtain ⟨row, hrow⟩ := ih (fun e he => hi e (by simp [he]))
    obtain ⟨v, hv⟩ := get_eq_of_lt (hi cv (by simp))
    refine ⟨(cv.1, v) :: row, ?_⟩
    rw [List.foldrM_cons, hrow]
    simp only [Option.bind_eq_bind, Option.some_bind]
    rw [hv]

theorem filterMap_get_length {l : List Value} {is : List Nat}
    (h : ∀ i ∈ is, i < l.length) :
    (is.filterMap (fun i => l.get? i)).length = is.length := by
  induction is with
  | nil => rfl
  | cons i is ih =>
    obtain ⟨v, hv⟩ := get_eq_of_lt (h i (by simp))
    rw [List.filterMap_cons, hv]
    simp only [List.length_cons]
    rw [ih (fun j hj => h j (by simp [hj]))]

theorem subAt_aligned (df : DataFrame) (is : List Nat)
    (hal : Aligned df) (hb : ∀ i ∈ is, i < df.num_rows) :
    Aligned (subAt df is) := by
  intro cv2 hcv2
  obtain ⟨cv, hcv, hcve⟩ := List.mem_map.mp hcv2
  have hlen : ∀ cve ∈ df.data, (is.filterMap (fun i => cve.2.get? i)).length = is.length := by
    intro cve hcvee
    exact filterMap_get_length (fun i hi => by rw [hal cve hcvee]; exact hb i hi)
  have hval : cv2.2.length = is.length := by
    rw [← hcve]
    exact hlen cv hcv
  rw [hval]
  unfold subAt subDict DataFrame.num_rows
  rcases hd : df.data with _ | ⟨e, rest⟩
  · rw [hd] at hcv
    cases hcv
  · simp only [List.map_cons]
    exact (hlen e (by rw [hd]; simp)).symm

theorem pyDictGet_mem_value {d : Dict α} {k : Value} {v : α}
    (h : pyDictGet d k = some v) : ∃ e ∈ d, e.2 = v := by
  unfold pyDictGet at h
  rcases hf : d.find? (fun e => pyEq e.1 k) with _ | e
  · rw [hf] at h
    cases h
  · rw [hf] at h
    exact ⟨e, List.mem_of_find?_eq_some hf, Option.some.inj h⟩

theorem pyDictSet_mem {d : Dict α} {k : Value} {v : α} :
    ∀ e ∈ pyDictSet d k v, e ∈ d ∨ e.2 = v := by
  induction d with
  | nil =>
    intro e he
    rcases List.mem_singleton.mp he with rfl
    exact Or.inr rfl
  | cons e2 rest ih =>
    intro e he
    unfold pyDictSet at he
    by_cases h2 : pyEq e2.1 k = true
    · rw [if_pos h2] at he
      rcases List.mem_cons.mp he with rfl | h3
      · exact Or.inr rfl
      · exact Or.inl (by simp [h3])
    · rw [if_neg h2] at he
      rcases List.mem_cons.mp he with rfl | h3
      · exact Or.inl (by simp)
      · rcases ih e h3 with h4 | h4
        · exact Or.inl (by simp [h4])
        · exact Or.inr h4

theorem group_by_missing (df : DataFrame) (gcol : Value)
    (hnone : pyDictGet df.data gcol = none) :
    df.group_by gcol = none ∨ df.group_by gcol = some [] := by
  rcases hn : df.num_rows with _ | m
  · right
    unfold DataFrame.group_by
    rw [hn]
    rfl
  · left
    unfold DataFrame.group_by
    rw [hn]
    have hcons : List.range (m + 1) = 0 :: (List.range m).map Nat.succ := List.range_succ_eq_map m
    rw [hcons, List.foldlM_cons]
    have hstep : groupStep df gcol [] 0 = none := by
      unfold groupStep
      rw [hnone]
    rw [hstep]
    rfl

/-- C9: on an aligned Table (every column of length `num_rows`, Python-dict
keys), every transformation again yields aligned Tables: `filter` succeeds
and its result is aligned for every predicate, `select` succeeds and its
result is aligned whenever all requested names are present, and every
sub-Table produced by `group_by` is aligned. -/
theorem c9_alignment_preserved (df : DataFrame)
    (hal : Aligned df) (hnd : NodupKeysP df) (hkr : KeysRefl df) :
    (∀ f : Dict Value → Bool, ∃ df2, df.filter f = some df2 ∧ Aligned df2)
    ∧ (∀ cols : List Value, (∀ c ∈ cols, (pyDictGet df.data c).isSome) →
        ∃ df2, df.select cols = some df2 ∧ Aligned df2)
    ∧ (∀ gcol gs, df.group_by gcol = some gs → ∀ g ∈ gs, Aligned g.2) := by
  refine ⟨?_, ?_, ?_⟩
  · intro f
    have hfold : ∀ (idxs : List Nat), (∀ i ∈ idxs, i < df.num_rows) →
        ∀ ks : List Nat, (∀ i ∈ ks, i < df.num_rows) →
        ∃ ks2, (∀ i ∈ ks2, i < df.num_rows)
          ∧ idxs.foldlM (filterStep df f) (subDict df ks) = some (subDict df ks2) := by
      intro idxs
      induction idxs with
      | nil =>
        intro _ ks hks
        exact ⟨ks, hks, rfl⟩
      | cons i idxs ih =>
        intro hidx ks hks
        have hibound : ∀ cv ∈ df.data, i < cv.2.length := by
          intro cv hcv
          rw [hal cv hcv]
          exact hidx i (by simp)
        obtain ⟨row, hrow⟩ := rowAt_some df i hibound
        have hstep : filterStep df f (subDict df ks) i
            = if f row then some (subDict df (ks ++ [i])) else some (subDict df ks) := by
          unfold filterStep
          rw [hrow]
          rcases hfr : f row with _ | _
          · simp [hfr]
          · simp only [hfr, if_true]
            exact appendRowInto_subDict df i hnd hkr hibound ks
        rw [List.foldlM_cons, hstep]
        rcases hf2 : f row with _ | _
        · simp only [Bool.false_eq_true, if_false, Option.bind_eq_bind, Option.some_bind]
          exact ih (fun j hj => hidx j (by simp [hj])) ks hks
        · simp only [if_true, Option.bind_eq_bind, Option.some_bind]
          refine ih (fun j hj => hidx j (by simp [hj])) (ks ++ [i]) ?_
          intro j hj
          rcases List.mem_append.mp hj with h1 | h2
          · exact hks j h1
          · rw [List.mem_singleton.mp h2]
            exact hidx i (by simp)
    obtain ⟨ks2, hks2, hfe⟩ :=
      hfold (List.range df.num_rows) (fun i hi => List.mem_range.mp hi) [] (by simp)
    refine ⟨subAt df ks2, ?_, subAt_aligned df ks2 hal hks2⟩
    unfold DataFrame.filter
    rw [freshSub_eq df hnd, hfe]
    rfl
  · intro cols hpres
    have hfold : ∀ (cs : List Value), (∀ c ∈ cs, (pyDictGet df.data c).isSome) →
        ∀ acc : Dict (List Value), (∀ e ∈ acc, e.2.length = df.num_rows) →
        ∃ d2, cs.foldlM (selectStep df) acc = some d2
          ∧ (∀ e ∈ d2, e.2.length = df.num_rows) := by
      intro cs
      induction cs with
      | nil =>
        intro _ acc hacc
        exact ⟨acc, rfl, hacc⟩
      | cons c cs ih =>
        intro hcs acc hacc
        obtain ⟨vs, hvs⟩ := Option.isSome_iff_exists.mp (hcs c (by simp))
        have hvslen : vs.length = df.num_rows := by
          obtain ⟨e, hem, hev⟩ := pyDictGet_mem_value hvs
          rw [← hev]
          exact hal e hem
        have hstep : selectStep df acc c = some (pyDictSet acc c vs) := by
          unfold selectStep
          rw [hvs]
        rw [List.foldlM_cons, hstep]
        simp only [Option.bind_eq_bind, Option.some_bind]
        refine ih (fun c2 hc2 => hcs c2 (by simp [hc2])) (pyDictSet acc c vs) ?_
        intro e he
        rcases pyDictSet_mem e he with h1 | h1
        · exact hacc e h1
        · rw [h1]
          exact hvslen
    obtain ⟨d2, hfe, hd2⟩ := hfold cols hpres [] (by simp)
    refine ⟨⟨d2⟩, ?_, ?_⟩
    · unfold DataFrame.select
      rw [hfe]
    · intro cv hcv
      rw [hd2 cv hcv]
      rcases hd : d2 with _ | ⟨e, rest⟩
      · rw [hd] at hcv
        cases hcv
      · show df.num_rows = DataFrame.num_rows ⟨e :: rest⟩
        rw [show DataFrame.num_rows ⟨e :: rest⟩ = e.2.length from rfl,
          hd2 e (by rw [hd]; simp)]
  · intro gcol gs hgs g hgm
    rcases hcol : pyDictGet df.data gcol with _ | gvs
    · rcases group_by_missing df gcol hcol with h1 | h1
      · rw [h1] at hgs
        cases hgs
      · rw [h1] at hgs
        rw [← Option.some.inj hgs] at hgm
        cases hgm
    · rw [group_by_eq df gcol gvs hnd hkr hal hcol] at hgs
      have hgs2 := Option.some.inj hgs
      rw [← hgs2] at hgm
      obtain ⟨g0, hg0m, hg0e⟩ := List.mem_map.mp hgm
      obtain ⟨_, hgrp, _, _, _, _⟩ := gIdx_inv gvs df.num_rows
      rw [← hg0e]
      exact subAt_aligned df g0.2 hal (hgrp g0 hg0m).2.2

/-- C9 witness: a concrete aligned one-column Table; `filter`, `select` of
the existing column, and `group_by` all preserve alignment. -/
theorem c9_alignment_preserved_witness :
    (∀ f : Dict Value → Bool,
      ∃ df2, DataFrame.filter ⟨[(Value.vStr (str "a"), [Value.vInt 1, Value.vInt 2])]⟩ f = some df2
        ∧ Aligned df2)
    ∧ (∀ cols : List Value,
        (∀ c ∈ cols,
          (pyDictGet (DataFrame.data ⟨[(Value.vStr (str "a"), [Value.vInt 1, Value.vInt 2])]⟩) c).isSome) →
        ∃ df2, DataFrame.select ⟨[(Value.vStr (str "a"), [Value.vInt 1, Value.vInt 2])]⟩ cols = some df2
          ∧ Aligned df2)
    ∧ (∀ gcol gs, DataFrame.group_by ⟨[(Value.vStr (str "a"), [Value.vInt 1, Value.vInt 2])]⟩ gcol = some gs →
        ∀ g ∈ gs, Aligned g.2) :=
  c9_alignment_preserved ⟨[(Value.vStr (str "a"), [Value.vInt 1, Value.vInt 2])]⟩
    (by unfold Aligned; decide)
    (by unfold NodupKeysP; decide)
    (by unfold KeysRefl; decide)

/-- C10: when the tokenized header contains the same column name more than
once, `read_csv` builds a single column per (Python-equal) name — the column
keys are those of the deduplicating dict comprehension over the header — and
`zip(header, values)` appends every duplicated field of each data row to
that single column: a name occurring `c` times in the header ends up with
`c * (number of data rows)` values, and when the first header name is
duplicated, `num_rows` (the first column's length) is inflated by the same
factor. Stated for streams whose lines are non-empty, whose data rows
tokenize to the header's width, and whose header contains no `nan` value
(every header value is Python-equal to itself). -/
theorem c10_duplicate_header (l0 : List Char) (ls : List (List Char)) (sep : List Char)
    (h0ne : lineRstrip l0 ≠ [])
    (hne : ∀ l ∈ ls, lineRstrip l ≠ [])
    (hrefl : ∀ h ∈ tokenizeLine (lineRstrip l0), pyEq h h = true)
    (hlen : ∀ l ∈ ls, (tokenizeLine (lineRstrip l)).length = (tokenizeLine (lineRstrip l0)).length) :
    ∃ cols, read_csv (l0 :: ls) sep = Except.ok ⟨cols⟩
      ∧ cols.map Prod.fst = (colsFromHeader (tokenizeLine (lineRstrip l0))).map Prod.fst
      ∧ (∀ k vs, pyDictGet cols k = some vs →
          vs.length = (tokenizeLine (lineRstrip l0)).countP (fun h => pyEq h k) * ls.length)
      ∧ (∀ h0 t, tokenizeLine (lineRstrip l0) = h0 :: t →
          DataFrame.num_rows ⟨cols⟩
            = (tokenizeLine (lineRstrip l0)).countP (fun h => pyEq h h0) * ls.length) := by
  obtain ⟨cols, hbuild, hget, hkeys⟩ :=
    buildCols_char (tokenizeLine (lineRstrip l0))
      (ls.map (fun l => tokenizeLine (lineRstrip l))) hrefl
  have hread : read_csv (l0 :: ls) sep = Except.ok ⟨cols⟩ := by
    have hstep : readLoop none 0 (l0 :: ls)
        = readLoop (some (tokenizeLine (lineRstrip l0),
            colsFromHeader (tokenizeLine (lineRstrip l0)))) 1 ls := by
      simp [readLoop, h0ne]
    have hfold : ls.foldlM
          (fun cs l => appendLine cs (tokenizeLine (lineRstrip l0)) (tokenizeLine (lineRstrip l)))
          (colsFromHeader (tokenizeLine (lineRstrip l0)))
        = buildCols (tokenizeLine (lineRstrip l0)) (ls.map (fun l => tokenizeLine (lineRstrip l))) := by
      rw [buildCols, List.foldlM_map]
    rw [read_csv, hstep,
      readLoop_build (tokenizeLine (lineRstrip l0)) ls
        (colsFromHeader (tokenizeLine (lineRstrip l0))) 1 (by omega) hne,
      hfold, hbuild]
  have hlenfact : ∀ k vs, pyDictGet cols k = some vs →
      vs.length = (tokenizeLine (lineRstrip l0)).countP (fun h => pyEq h k) * ls.length := by
    intro k vs hvs
    rw [hget k] at hvs
    rcases hany : (tokenizeLine (lineRstrip l0)).any (fun h => pyEq h k) with _ | _
    · rw [hany] at hvs
      simp at hvs
    · rw [hany] at hvs
      simp only [if_true] at hvs
      have hvs2 : vs = ((ls.map (fun l => tokenizeLine (lineRstrip l))).map
          (fun r => classPick (tokenizeLine (lineRstrip l0)) r k)).flatten := by
        injection hvs with h
        exact h.symm
      rw [hvs2,
        join_length_const ((tokenizeLine (lineRstrip l0)).countP (fun h => pyEq h k)) _ ?_,
        List.length_map, List.length_map]
      · ring
      · intro x hx
        obtain ⟨r, hr, hrx⟩ := List.mem_map.mp hx
        obtain ⟨l, hl, hlr⟩ := List.mem_map.mp hr
        rw [← hrx]
        exact classPick_length k _ r (by rw [← hlr]; exact hlen l hl)
  refine ⟨cols, hread, hkeys, hlenfact, ?_⟩
  intro h0 t hht
  obtain ⟨t2, hcfh⟩ := colsFromHeader_head h0 t
  have hk : cols.map Prod.fst = h0 :: t2.map Prod.fst := by
    rw [hkeys, hht, hcfh]
    rfl
  cases cols with
  | nil => simp at hk
  | cons e rest =>
    have he1 : e.1 = h0 := by
      simp only [List.map_cons, List.cons.injEq] at hk
      exact hk.1
    have hrefl0 : pyEq h0 h0 = true := hrefl h0 (by rw [hht]; simp)
    have hgete : pyDictGet (e :: rest) h0 = some e.2 := by
      rcases e with ⟨e1, e2⟩
      cases he1
      exact pyDictGet_head hrefl0
    have := hlenfact h0 e.2 hgete
    simpa [DataFrame.num_rows] using this

/-- C10 witness: on the stream with header line `a,a` and single data line
`1,2`, the header tokenizes to the three fields `a`, `a`, `` (the third
being the tokenizer's spurious trailing empty field), the single column
named `a` receives both `1` and `2`, and `num_rows` becomes `2` although
there is only one data row. -/
theorem c10_duplicate_header_witness :
    ∃ cols, read_csv [str "a,a", str "1,2"] (str ",") = Except.ok ⟨cols⟩
      ∧ cols.map Prod.fst
          = (colsFromHeader (tokenizeLine (lineRstrip (str "a,a")))).map Prod.fst
      ∧ (∀ k vs, pyDictGet cols k = some vs →
          vs.length = (tokenizeLine (lineRstrip (str "a,a"))).countP (fun h => pyEq h k)
            * [str "1,2"].length)
      ∧ (∀ h0 t, tokenizeLine (lineRstrip (str "a,a")) = h0 :: t →
          DataFrame.num_rows ⟨cols⟩
            = (tokenizeLine (lineRstrip (str "a,a"))).countP (fun h => pyEq h h0)
              * [str "1,2"].length) :=
  c10_duplicate_header (str "a,a") [str "1,2"] (str ",")
    (by decide) (by decide) (by decide) (by decide)

/-- C1: the claim states that a well-formed line with only unquoted fields
and `n` separator occurrences tokenizes to exactly `n + 1` fields. The code
disagrees: because the pattern can match the empty string at end of line,
`finditer` yields one extra empty field after the last real field whenever
the line does not end with a separator. On the failing input `a,b`
(one separator) the tokenizer produces three fields, not two. -/
theorem c1_unquoted_field_count_bug :
    tokenizeLine (str "a,b") = [Value.vStr (str "a"), Value.vStr (str "b"), Value.vStr []]
      ∧ (tokenizeLine (str "a,b")).length ≠ (str "a,b").count ',' + 1 := by
  decide

/-- C2: the claim states that `read_csv` splits at the caller-supplied
separator (default comma). The code compiles a pattern with the comma hard
coded and never reads its `sep` parameter, so with separator `;` the line
`a;b` is not split: the resulting header is the single field `a;b` plus the
spurious trailing empty field, rather than the two fields `a`, `b`. -/
theorem c2_separator_ignored_bug :
    read_csv [str "a;b"] (str ";")
        = Except.ok ⟨[(Value.vStr (str "a;b"), []), (Value.vStr [], [])]⟩
      ∧ DataFrame.columns ⟨[(Value.vStr (str "a;b"), []), (Value.vStr [], [])]⟩
          ≠ [Value.vStr (str "a"), Value.vStr (str "b")] := by
  decide

/-- C5: the claim states that the first non-empty line is used as the header
even when the first physical line is empty. The code keys the header
assignment on the physical index `i == 0`, so when line 0 is empty it is
skipped, `header` is never assigned, and the first later non-empty line
raises `UnboundLocalError` instead of parsing. -/
theorem c5_leading_empty_line_bug :
    read_csv [str "", str "a,b", str "1,2"] (str ",") = Except.error PyErr.nameError := by
  decide

/-- C6: the claim states that a stream with no non-empty lines yields a
Table with zero columns and zero rows. The code leaves `columns = None` in
that case and calls `DataFrame(None)`, whose `list(data.keys())` raises
`AttributeError`; nothing is returned at all (on an empty stream and on a
stream of blank lines alike). -/
theorem c6_empty_stream_bug :
    read_csv [] (str ",") = Except.error PyErr.attributeError
      ∧ read_csv [str "", str ""] (str ",") = Except.error PyErr.attributeError := by
  decide

/-!
## The tokenizer on a single quoted field
-/

theorem takeWhile_all {p : Char → Bool} :
    ∀ {l : List Char}, (∀ c ∈ l, p c = true) → l.takeWhile p = l := by
  intro l
  induction l with
  | nil => intro _; rfl
  | cons c rest ih =>
    intro h
    simp [List.takeWhile_cons, h c (by simp), ih (fun x hx => h x (by simp [hx]))]

theorem takeWhile_append_stop {p : Char → Bool} {x : Char} {t : List Char} :
    ∀ {w : List Char}, (∀ c ∈ w, p c = true) → p x = false →
      ((w ++ x :: t).takeWhile p) = w := by
  intro w
  induction w with
  | nil =>
    intro _ hx
    simp [List.takeWhile_cons, hx]
  | cons c rest ih =>
    intro h hx
    simp only [List.cons_append, List.takeWhile_cons, h c (by simp), if_true]
    rw [ih (fun y hy => h y (by simp [hy])) hx]

theorem firstSome_top {f : Nat → Option α} {n : Nat} {x : α} (h : f n = some x) :
    firstSome f n = some x := by
  cases n with
  | zero => exact h
  | succ m =>
    unfold firstSome
    rw [h]

theorem tryEach_head {f : β → Option α} {b : β} {rest : List β} {x : α} (h : f b = some x) :
    tryEach f (b :: rest) = some x := by
  unfold tryEach
  rw [h]

theorem qSteps_chr {c : Char} {rest : List Char} (hc : c ≠ '"') :
    qSteps (c :: rest) = 0 :: (qSteps rest).map (fun r => r + 1) := by
  cases rest with
  | nil => rw [qSteps.eq_3, if_neg hc]
  | cons c2 rest2 => rw [qSteps.eq_2, if_neg hc]

theorem qSteps_pair {rest : List Char} :
    qSteps ('"' :: '"' :: rest) = 0 :: (qSteps rest).map (fun r => r + 2) := by
  rw [qSteps.eq_2, if_pos rfl, if_pos rfl]

theorem qSteps_quote_stop {rest : List Char} (h : rest.head? ≠ some '"') :
    qSteps ('"' :: rest) = [0] := by
  cases rest with
  | nil => rw [qSteps.eq_3, if_pos rfl]
  | cons c2 rest2 =>
    have hc2 : c2 ≠ '"' := by
      intro hcc
      exact h (by rw [hcc]; rfl)
    rw [qSteps.eq_2, if_pos rfl, if_neg hc2]

/-- On well-formed quoted content followed by the closing quote (and
whatever comes after it, as long as it does not begin with a quote), the
stop positions of the quoted-content subexpression end at exactly the
content's length. -/
theorem qSteps_paired {content : List Char} (hp : PairedP content) :
    ∀ {tail : List Char}, tail.head? ≠ some '"' →
      ∃ pre, qSteps (content ++ '"' :: tail) = pre ++ [content.length] := by
  induction hp with
  | nil =>
    intro tail htail
    exact ⟨[], qSteps_quote_stop htail⟩
  | pair rest hrest ih =>
    intro tail htail
    obtain ⟨pre, hpre⟩ := ih htail
    refine ⟨0 :: pre.map (fun r => r + 2), ?_⟩
    rw [show (('"' :: '"' :: rest) ++ '"' :: tail : List Char)
        = '"' :: '"' :: (rest ++ '"' :: tail) from rfl]
    rw [qSteps_pair, hpre, List.map_append]
    rfl
  | chr c rest hc hrest ih =>
    intro tail htail
    obtain ⟨pre, hpre⟩ := ih htail
    refine ⟨0 :: pre.map (fun r => r + 1), ?_⟩
    rw [show ((c :: rest) ++ '"' :: tail : List Char) = c :: (rest ++ '"' :: tail) from rfl]
    rw [qSteps_chr hc, hpre, List.map_append]
    rfl

theorem pyOrGroups_some_none (l : List Char) : pyOrGroups (some l) none = l := by
  unfold pyOrGroups
  by_cases h : l = []
  · rw [h]
    rfl
  · simp [h]

theorem matchFrom_nil : matchFrom ([] : List Char) = some (0, none, some []) := rfl

theorem isPySpace_quote : isPySpace '"' = false := rfl

theorem tokAux_step {t : List Char} {k : Nat} {g1 g2 : Option (List Char)} (fuel : Nat)
    (hm : matchFrom t = some (k, g1, g2)) (hk : k ≠ 0) :
    tokAux (fuel + 1) t = (g1, g2) :: tokAux fuel (t.drop k) := by
  cases t with
  | nil =>
    rw [matchFrom_nil] at hm
    injection hm with h3
    exact absurd (congrArg Prod.fst h3).symm hk
  | cons c rest =>
    rw [tokAux.eq_3, hm]
    show (if k = 0 then [(g1, g2)] else (g1, g2) :: tokAux fuel ((c :: rest).drop k))
      = (g1, g2) :: tokAux fuel ((c :: rest).drop k)
    rw [if_neg hk]

theorem tokAux_last (fuel : Nat) :
    tokAux (fuel + 1) [] = [(none, some [])] := by
  rw [tokAux.eq_2, matchFrom_nil]
  try rfl

/-- The full pattern, applied to optional whitespace, a well-formed quoted
field and optional trailing whitespace, matches the entire line with the
content as group 1. -/
theorem matchFrom_quoted (w1 w2 content : List Char)
    (h1 : ∀ c ∈ w1, isPySpace c = true) (h2 : ∀ c ∈ w2, isPySpace c = true)
    (hp : PairedP content) :
    matchFrom (w1 ++ '"' :: (content ++ '"' :: w2))
      = some (w1.length + 1 + content.length + 1 + w2.length, some content, none) := by
  have hws1 : wsRun (w1 ++ '"' :: (content ++ '"' :: w2)) = w1.length := by
    unfold wsRun
    rw [takeWhile_append_stop h1 isPySpace_quote]
  have hdrop1 : (w1 ++ '"' :: (content ++ '"' :: w2)).drop w1.length
      = '"' :: (content ++ '"' :: w2) :=
    List.drop_left w1 ('"' :: (content ++ '"' :: w2))
  have htailhead : w2.head? ≠ some '"' := by
    cases w2 with
    | nil => simp
    | cons c rest =>
      intro hcc
      have : c = '"' := by injection hcc
      have := h2 c (by simp)
      rw [this] at * <;> simp_all [isPySpace_quote]
  obtain ⟨pre, hpre⟩ := qSteps_paired hp htailhead
  have hwq : matchQuoted ('"' :: (content ++ '"' :: w2)) w1.length
      = some (w1.length + 1 + content.length + 1 + w2.length, some content, none) := by
    show tryEach (fun r =>
        match (content ++ '"' :: w2).drop r with
        | '"' :: rest => matchTail (w1.length + 1 + r + 1)
            (some ((content ++ '"' :: w2).take r)) none rest
        | _ => none)
      ((qSteps (content ++ '"' :: w2)).reverse)
      = some (w1.length + 1 + content.length + 1 + w2.length, some content, none)
    rw [hpre, List.reverse_append]
    simp only [List.reverse_cons, List.reverse_nil, List.nil_append, List.singleton_append]
    apply tryEach_head
    show (match (content ++ '"' :: w2).drop content.length with
      | '"' :: rest => matchTail (w1.length + 1 + content.length + 1)
          (some ((content ++ '"' :: w2).take content.length)) none rest
      | _ => none)
      = some (w1.length + 1 + content.length + 1 + w2.length, some content, none)
    rw [List.drop_left content ('"' :: w2)]
    show matchTail (w1.length + 1 + content.length + 1)
        (some ((content ++ '"' :: w2).take content.length)) none w2
      = some (w1.length + 1 + content.length + 1 + w2.length, some content, none)
    have htake : (content ++ '"' :: w2).take content.length = content :=
      List.take_left content ('"' :: w2)
    rw [htake]
    unfold matchTail
    have hwr2 : wsRun w2 = w2.length := by
      unfold wsRun
      rw [takeWhile_all h2]
    rw [hwr2]
    apply firstSome_top
    show (match w2.drop w2.length with
      | ',' :: _ => some (w1.length + 1 + content.length + 1 + w2.length + 1,
          some content, none)
      | [] => some (w1.length + 1 + content.length + 1 + w2.length, some content, none)
      | _ => none)
      = some (w1.length + 1 + content.length + 1 + w2.length, some content, none)
    rw [List.drop_length]
  have hmain : (fun a =>
      match matchQuoted ((w1 ++ '"' :: (content ++ '"' :: w2)).drop a) a with
      | some res => some res
      | none => matchUnquoted ((w1 ++ '"' :: (content ++ '"' :: w2)).drop a) a) w1.length
      = some (w1.length + 1 + content.length + 1 + w2.length, some content, none) := by
    show (match matchQuoted ((w1 ++ '"' :: (content ++ '"' :: w2)).drop w1.length)
          w1.length with
      | some res => some res
      | none => matchUnquoted ((w1 ++ '"' :: (content ++ '"' :: w2)).drop w1.length)
          w1.length)
      = some (w1.length + 1 + content.length + 1 + w2.length, some content, none)
    rw [hdrop1, hwq]
  unfold matchFrom
  rw [hws1]
  exact firstSome_top hmain

/-- C3 (amended): the value of a quoted field is the content between the
outer quotes with each doubled quote collapsed to one — and then passed
through `.strip()`, so leading/trailing whitespace of the quoted content
itself is removed as well (not only the whitespace outside the quotes,
as the claim stated); finally per-field type inference is applied. The
tokenizer also emits its spurious trailing empty field. -/
theorem c3_quoted_field_value (w1 w2 content : List Char)
    (h1 : ∀ c ∈ w1, isPySpace c = true) (h2 : ∀ c ∈ w2, isPySpace c = true)
    (hp : PairedP content) :
    tokenizeLine (w1 ++ '"' :: (content ++ '"' :: w2))
      = [convert_value (stripPy (replaceQQ content)), Value.vStr []] := by
  have hm := matchFrom_quoted w1 w2 content h1 h2 hp
  have hlen : (w1 ++ '"' :: (content ++ '"' :: w2)).length
      = w1.length + 1 + content.length + 1 + w2.length := by
    simp [List.length_append]
    omega
  unfold tokenizeLine
  have htok : tokAux ((w1 ++ '"' :: (content ++ '"' :: w2)).length + 1)
      (w1 ++ '"' :: (content ++ '"' :: w2))
      = [(some content, none), (none, some [])] := by
    rw [hlen]
    rw [tokAux_step (w1.length + 1 + content.length + 1 + w2.length) hm (by omega)]
    rw [show (w1 ++ '"' :: (content ++ '"' :: w2)).drop
          (w1.length + 1 + content.length + 1 + w2.length)
        = [] from by rw [← hlen]; exact List.drop_length _]
    rw [show w1.length + 1 + content.length + 1 + w2.length
        = (w1.length + content.length + w2.length + 1) + 1 from by omega]
    rw [tokAux_last]
  rw [htok]
  unfold processField
  show [convert_value (stripPy (replaceQQ (pyOrGroups (some content) none))),
      convert_value (stripPy (replaceQQ (pyOrGroups none (some []))))]
    = [convert_value (stripPy (replaceQQ content)), Value.vStr []]
  rw [pyOrGroups_some_none]
  rfl

/-- C3 witness: the quoted field `" a"` surrounded by one space on each
side of the quotes; the collapsed, stripped content is `a`. -/
theorem c3_quoted_field_value_witness :
    tokenizeLine ([' '] ++ '"' :: ([' ', 'a'] ++ '"' :: [' ']))
      = [convert_value (stripPy (replaceQQ [' ', 'a'])), Value.vStr []] :=
  c3_quoted_field_value [' '] [' '] [' ', 'a'] (by decide) (by decide)
    (PairedP.chr ' ' ['a'] (by decide)
      (PairedP.chr 'a' [] (by decide) PairedP.nil))

/-- C3 counterexample: the claim states that whitespace is trimmed only
around a quoted field, never from the quoted content itself. Tokenizing the
single quoted field `" a "` (quote, space, a, space, quote) yields the
field value `a`: the code applies `.strip()` to the extracted quoted
content, so the inner spaces are removed, contradicting the claim that the
value equals the content ` a ` between the quotes. -/
theorem c3_quoted_strip_counterexample :
    tokenizeLine ['"', ' ', 'a', ' ', '"'] = [Value.vStr ['a'], Value.vStr []]
      ∧ Value.vStr ['a'] ≠ Value.vStr [' ', 'a', ' '] := by
  decide

/-!
## Python numeric string acceptance: parser versus declarative grammar
-/

theorem udB_chr {c : Char} {rest : List Char} (hc : c ≠ '_') :
    udB (c :: rest) = (isPyDigit c && udB rest) :=
  udB.eq_3 c rest hc

theorem ud_iff (l : List Char) :
    (udA l = true ↔ DigitGroupsP l) ∧ (udB l = true ↔ GroupsTailP l) := by
  induction l with
  | nil =>
    constructor
    · constructor
      · intro h
        exact absurd h (by decide)
      · rintro ⟨g, gs, hgne, -, -, heq⟩
        exact absurd (List.append_eq_nil.mp heq.symm).1 hgne
    · constructor
      · intro _
        exact ⟨[], [], by simp, by simp, rfl⟩
      · intro _
        rfl
  | cons c rest ih =>
    obtain ⟨ihA, ihB⟩ := ih
    have hA : udA (c :: rest) = true ↔ DigitGroupsP (c :: rest) := by
      rw [udA.eq_2, Bool.and_eq_true]
      constructor
      · rintro ⟨hd, hb⟩
        obtain ⟨g, gs, hgd, hgs, heq⟩ := ihB.mp hb
        refine ⟨c :: g, gs, by simp, ?_, hgs, ?_⟩
        · intro x hx
          rcases List.mem_cons.mp hx with rfl | hx2
          · exact hd
          · exact hgd x hx2
        · rw [List.cons_append, heq]
      · rintro ⟨g, gs, hgne, hgd, hgs, heq⟩
        cases g with
        | nil => exact absurd rfl hgne
        | cons c0 g2 =>
          rw [List.cons_append] at heq
          have hc0 : c = c0 := (List.cons.injEq _ _ _ _ ▸ heq).1
          have hrest : rest = g2 ++ (gs.map (fun h => '_' :: h)).flatten :=
            (List.cons.injEq _ _ _ _ ▸ heq).2
          constructor
          · rw [hc0]
            exact hgd c0 (by simp)
          · exact ihB.mpr ⟨g2, gs, fun x hx => hgd x (by simp [hx]), hgs, hrest⟩
    refine ⟨hA, ?_⟩
    by_cases hc : c = '_'
    · subst hc
      rw [udB.eq_2]
      rw [ihA]
      constructor
      · rintro ⟨g, gs, hgne, hgd, hgs, heq⟩
        refine ⟨[], g :: gs, by simp, ?_, ?_⟩
        · intro h hh
          rcases List.mem_cons.mp hh with rfl | hh2
          · exact ⟨hgne, hgd⟩
          · exact hgs h hh2
        · rw [List.nil_append, List.map_cons, List.flatten_cons, List.cons_append, heq]
      · rintro ⟨g, gs, hgd, hgs, heq⟩
        cases g with
        | cons c0 g2 =>
          rw [List.cons_append] at heq
          have hc0 : '_' = c0 := (List.cons.injEq _ _ _ _ ▸ heq).1
          have := hgd c0 (by simp)
          rw [← hc0] at this
          exact absurd this (by decide)
        | nil =>
          rw [List.nil_append] at heq
          cases gs with
          | nil => simp at heq
          | cons h gs2 =>
            rw [List.map_cons, List.flatten_cons, List.cons_append] at heq
            have hrest : rest = h ++ (gs2.map (fun x => '_' :: x)).flatten :=
              (List.cons.injEq _ _ _ _ ▸ heq).2
            exact ⟨h, gs2, (hgs h (by simp)).1, (hgs h (by simp)).2,
              fun x hx => hgs x (by simp [hx]), hrest⟩
    · rw [udB_chr hc, Bool.and_eq_true]
      constructor
      · rintro ⟨hd, hb⟩
        obtain ⟨g, gs, hgd, hgs, heq⟩ := ihB.mp hb
        refine ⟨c :: g, gs, ?_, hgs, ?_⟩
        · intro x hx
          rcases List.mem_cons.mp hx with rfl | hx2
          · exact hd
          · exact hgd x hx2
        · rw [List.cons_append, heq]
      · rintro ⟨g, gs, hgd, hgs, heq⟩
        cases g with
        | nil =>
          rw [List.nil_append] at heq
          cases gs with
          | nil => simp at heq
          | cons h gs2 =>
            rw [List.map_cons, List.flatten_cons, List.cons_append] at heq
            have hc0 : c = '_' := (List.cons.injEq _ _ _ _ ▸ heq).1
            exact absurd hc0 hc
        | cons c0 g2 =>
          rw [List.cons_append] at heq
          have hc0 : c = c0 := (List.cons.injEq _ _ _ _ ▸ heq).1
          have hrest : rest = g2 ++ (gs.map (fun h => '_' :: h)).flatten :=
            (List.cons.injEq _ _ _ _ ▸ heq).2
          constructor
          · rw [hc0]
            exact hgd c0 (by simp)
          · exact ihB.mpr ⟨g2, gs, fun x hx => hgd x (by simp [hx]), hgs, hrest⟩

theorem ws_cases {c : Char} (h : isPySpace c = true) :
    c = ' ' ∨ c = '\t' ∨ c = '\n' ∨ c = '\r' ∨ c = '\x0b' ∨ c = '\x0c' := by
  have h2 := h
  simp only [isPySpace, Bool.or_eq_true, decide_eq_true_eq] at h2
  tauto

theorem UD_not_ws {c : Char} (h : isUD c = true) : isPySpace c = false := by
  by_contra hn
  have hw : isPySpace c = true := by revert hn; cases isPySpace c <;> simp
  rcases ws_cases hw with rfl|rfl|rfl|rfl|rfl|rfl <;> exact absurd h (by decide)

theorem digit_ne_plus {c : Char} (h : isPyDigit c = true) : c ≠ '+' := by
  intro hc
  rw [hc] at h
  exact absurd h (by decide)

theorem digit_ne_minus {c : Char} (h : isPyDigit c = true) : c ≠ '-' := by
  intro hc
  rw [hc] at h
  exact absurd h (by decide)

theorem digitGroups_ne_nil {d : List Char} (hd : DigitGroupsP d) : d ≠ [] := by
  obtain ⟨g, gs, hgne, -, -, rfl⟩ := hd
  intro h
  exact hgne (List.append_eq_nil.mp h).1

theorem digitGroups_mem {d : List Char} (hd : DigitGroupsP d) : ∀ c ∈ d, isUD c = true := by
  obtain ⟨g, gs, -, hgd, hgs, rfl⟩ := hd
  intro c hc
  rcases List.mem_append.mp hc with h | h
  · simp [isUD, hgd c h]
  · obtain ⟨x, hx, hcx⟩ := List.mem_flatten.mp h
    obtain ⟨h0, hh0, rfl⟩ := List.mem_map.mp hx
    rcases List.mem_cons.mp hcx with rfl | hch
    · simp [isUD]
    · simp [isUD, (hgs h0 hh0).2 c hch]

theorem digitGroups_head {d : List Char} (hd : DigitGroupsP d) {c : Char}
    (hc : d.head? = some c) : isPyDigit c = true := by
  obtain ⟨g, gs, hgne, hgd, -, rfl⟩ := hd
  cases g with
  | nil => exact absurd rfl hgne
  | cons c0 g2 =>
    rw [List.cons_append, List.head?_cons] at hc
    exact (Option.some.inj hc) ▸ hgd c0 (by simp)

theorem dropWhile_append_all {p : Char → Bool} :
    ∀ {w : List Char}, (∀ c ∈ w, p c = true) → ∀ t : List Char,
      (w ++ t).dropWhile p = t.dropWhile p := by
  intro w
  induction w with
  | nil => intro _ t; rfl
  | cons c rest ih =>
    intro h t
    rw [List.cons_append, List.dropWhile_cons, if_pos (h c (by simp))]
    exact ih (fun x hx => h x (by simp [hx])) t

theorem dropWhile_head_neg {p : Char → Bool} {x : Char} (t : List Char) (hx : p x = false) :
    (x :: t).dropWhile p = x :: t := by
  rw [List.dropWhile_cons, if_neg (by simp [hx])]

theorem stripPy_decomp (l : List Char) :
    ∃ w1 w2, AllWSP w1 ∧ AllWSP w2 ∧ l = w1 ++ stripPy l ++ w2 := by
  refine ⟨l.takeWhile isPySpace,
    ((l.dropWhile isPySpace).reverse.takeWhile isPySpace).reverse, ?_, ?_, ?_⟩
  · intro c hc
    exact List.mem_takeWhile_imp hc
  · intro c hc
    exact List.mem_takeWhile_imp (List.mem_reverse.mp hc)
  · conv_lhs => rw [← List.takeWhile_append_dropWhile (p := isPySpace) (l := l)]
    rw [List.append_assoc]
    congr 1
    conv_lhs => rw [← List.reverse_reverse (l.dropWhile isPySpace)]
    conv_lhs =>
      rw [← List.takeWhile_append_dropWhile (p := isPySpace)
        (l := (l.dropWhile isPySpace).reverse)]
    rw [List.reverse_append]
    rfl

theorem stripPy_exact {w1 w2 mid : List Char} (h1 : AllWSP w1) (h2 : AllWSP w2)
    (hm : mid ≠ []) (hmw : ∀ c ∈ mid, isPySpace c = false) :
    stripPy (w1 ++ mid ++ w2) = mid := by
  unfold stripPy
  rw [List.append_assoc, dropWhile_append_all h1]
  cases hmid : mid with
  | nil => exact absurd hmid hm
  | cons c m =>
    rw [List.cons_append, dropWhile_head_neg _ (hmw c (by simp [hmid]))]
    rw [← List.cons_append, ← hmid]
    rw [List.reverse_append, dropWhile_append_all (fun c hc => h2 c (List.mem_reverse.mp hc))]
    cases hrev : mid.reverse with
    | nil => exact absurd (by simpa using hrev) hm
    | cons d mr =>
      have hd : d ∈ mid := List.mem_reverse.mp (by simp [hrev])
      rw [dropWhile_head_neg _ (hmw d hd), ← hrev, List.reverse_reverse]

theorem splitSign_plus (d : List Char) : splitSign ('+' :: d) = (1, d) := rfl

theorem splitSign_minus (d : List Char) : splitSign ('-' :: d) = (-1, d) := rfl

theorem splitSign_nosign {d : List Char} (h1 : d.head? ≠ some '+')
    (h2 : d.head? ≠ some '-') : splitSign d = (1, d) := by
  unfold splitSign
  split
  · exact absurd rfl h1
  · exact absurd rfl h2
  · rfl

theorem splitSign_decomp (t : List Char) :
    ∃ s, SignOptP s ∧ t = s ++ (splitSign t).2 := by
  cases t with
  | nil => exact ⟨[], Or.inl rfl, rfl⟩
  | cons c r =>
    by_cases hp : c = '+'
    · subst hp
      exact ⟨['+'], Or.inr (Or.inl rfl), rfl⟩
    · by_cases hm : c = '-'
      · subst hm
        exact ⟨['-'], Or.inr (Or.inr rfl), rfl⟩
      · refine ⟨[], Or.inl rfl, ?_⟩
        rw [splitSign_nosign (by simp [hp]) (by simp [hm])]
        rfl

theorem pyInt_isSome (l : List Char) :
    (pyIntOfList l).isSome = true ↔ udA (splitSign (stripPy l)).2 = true := by
  by_cases h : udA (splitSign (stripPy l)).2 = true <;> simp [pyIntOfList, h]

theorem signOpt_mem_not_ws {s : List Char} (hs : SignOptP s) :
    ∀ c ∈ s, isPySpace c = false := by
  rcases hs with rfl | rfl | rfl <;> intro c hc <;> simp at hc <;> rw [hc] <;> decide

theorem pyInt_iff (l : List Char) : (pyIntOfList l).isSome = true ↔ PyIntTextP l := by
  rw [pyInt_isSome]
  constructor
  · intro hud
    obtain ⟨w1, w2, hw1, hw2, hl⟩ := stripPy_decomp l
    obtain ⟨s, hs, ht⟩ := splitSign_decomp (stripPy l)
    refine ⟨w1, s, (splitSign (stripPy l)).2, w2, hw1, hs, (ud_iff _).1.mp hud, hw2, ?_⟩
    have hl2 : l = w1 ++ (s ++ (splitSign (stripPy l)).2) ++ w2 := by
      rw [← ht]
      exact hl
    conv_lhs => rw [hl2]
    simp [List.append_assoc]
  · rintro ⟨w1, s, d, w2, hw1, hs, hd, hw2, rfl⟩
    have hmw : ∀ c ∈ s ++ d, isPySpace c = false := by
      intro c hc
      rcases List.mem_append.mp hc with h | h
      · exact signOpt_mem_not_ws hs c h
      · exact UD_not_ws (digitGroups_mem hd c h)
    have hmne : s ++ d ≠ [] := by
      intro h
      exact digitGroups_ne_nil hd (List.append_eq_nil.mp h).2
    have hre : w1 ++ s ++ d ++ w2 = w1 ++ (s ++ d) ++ w2 := by
      simp [List.append_assoc]
    rw [hre, stripPy_exact hw1 hw2 hmne hmw]
    have hsplit : (splitSign (s ++ d)).2 = d := by
      rcases hs with rfl | rfl | rfl
      · rw [List.nil_append]
        rw [splitSign_nosign]
        · intro hc
          exact digit_ne_plus (digitGroups_head hd hc) rfl
        · intro hc
          exact digit_ne_minus (digitGroups_head hd hc) rfl
      · rfl
      · rfl
    rw [hsplit]
    exact (ud_iff d).1.mpr hd

theorem takeWhile_exact {p : Char → Bool} {d t : List Char}
    (hd : ∀ c ∈ d, p c = true) (ht : ∀ c, t.head? = some c → p c = false) :
    (d ++ t).takeWhile p = d := by
  cases t with
  | nil =>
    rw [List.append_nil]
    exact takeWhile_all hd
  | cons x t2 =>
    exact takeWhile_append_stop hd (ht x rfl)

theorem dropWhile_exact {p : Char → Bool} {d t : List Char}
    (hd : ∀ c ∈ d, p c = true) (ht : ∀ c, t.head? = some c → p c = false) :
    (d ++ t).dropWhile p = t := by
  rw [dropWhile_append_all hd]
  cases t with
  | nil => rfl
  | cons x t2 =>
    exact dropWhile_head_neg t2 (ht x rfl)

theorem runUD_exact {d t : List Char} (hd : ∀ c ∈ d, isUD c = true)
    (ht : ∀ c, t.head? = some c → isUD c = false) :
    runUD (d ++ t) = (d, t) := by
  unfold runUD
  rw [takeWhile_exact hd ht, dropWhile_exact hd ht]

theorem signSplit_exact {s d : List Char} (hs : SignOptP s) (hd : DigitGroupsP d) :
    (splitSign (s ++ d)).2 = d := by
  rcases hs with rfl | rfl | rfl
  · rw [List.nil_append]
    rw [splitSign_nosign]
    · intro hc
      exact digit_ne_plus (digitGroups_head hd hc) rfl
    · intro hc
      exact digit_ne_minus (digitGroups_head hd hc) rfl
  · rfl
  · rfl

theorem expTail_head_not_UD {r : List Char} (hr : ExpTailP r) :
    ∀ c, r.head? = some c → isUD c = false := by
  rcases hr with rfl | ⟨e, s, d, he, -, -, rfl⟩
  · intro c hc
    exact absurd hc (by simp)
  · intro c hc
    rw [List.head?_cons] at hc
    rcases he with rfl | rfl <;> rw [← Option.some.inj hc] <;> decide

theorem parseExp_iff (r : List Char) : (parseExp r).isSome = true ↔ ExpTailP r := by
  constructor
  · intro h
    cases r with
    | nil => exact Or.inl rfl
    | cons c rest =>
      by_cases hce : (c = 'e' || c = 'E') = true
      · have hud : udA (splitSign rest).2 = true := by
          by_contra hn
          simp [parseExp, hce, hn] at h
        obtain ⟨s, hs, ht⟩ := splitSign_decomp rest
        refine Or.inr ⟨c, s, (splitSign rest).2, by simpa using hce, hs,
          (ud_iff _).1.mp hud, ?_⟩
        rw [← ht]
      · simp [parseExp, hce] at h
  · intro h
    rcases h with rfl | ⟨e, s, d, he, hs, hd, rfl⟩
    · rfl
    · have hsplit := signSplit_exact hs hd
      have hud := (ud_iff d).1.mpr hd
      rcases he with rfl | rfl <;> simp [parseExp, hsplit, hud]

theorem parseFloatNum_iff (l : List Char) :
    (parseFloatNum l).isSome = true ↔ FloatNumP l := by
  constructor
  · intro h
    have hsplit0 : l = (runUD l).1 ++ (runUD l).2 :=
      (List.takeWhile_append_dropWhile isUD l).symm
    simp only [parseFloatNum] at h
    split at h
    · rename_i r2 heq
      have hr2 : r2 = (runUD r2).1 ++ (runUD r2).2 :=
        (List.takeWhile_append_dropWhile isUD r2).symm
      split at h
      · rename_i hcond
        simp only [Bool.and_eq_true, Bool.or_eq_true, decide_eq_true_eq,
          Bool.not_eq_true', Bool.and_eq_false_iff, decide_eq_false_iff_not] at hcond
        split at h
        · rename_i e heq2
          refine Or.inr ⟨(runUD l).1, (runUD r2).1, (runUD r2).2, ?_, ?_, ?_, ?_, ?_⟩
          · rcases hcond.1.1 with h1 | h1
            · exact Or.inl h1
            · exact Or.inr ((ud_iff _).1.mp h1)
          · rcases hcond.1.2 with h1 | h1
            · exact Or.inl h1
            · exact Or.inr ((ud_iff _).1.mp h1)
          · rcases hcond.2 with h1 | h1
            · intro hx
              exact h1 hx.1
            · intro hx
              exact h1 hx.2
          · exact (parseExp_iff _).mp (by simp [heq2])
          · conv_lhs => rw [hsplit0]
            rw [heq]
            congr 1
            rw [← hr2]
        · exact absurd h (by simp)
      · exact absurd h (by simp)
    · split at h
      · rename_i hud
        split at h
        · rename_i e heq2
          refine Or.inl ⟨(runUD l).1, (runUD l).2, (ud_iff _).1.mp hud,
            (parseExp_iff _).mp (by simp [heq2]), hsplit0⟩
        · exact absurd h (by simp)
      · exact absurd h (by simp)
  · intro h
    rcases h with ⟨d, r, hd, hr, rfl⟩ | ⟨i, f, r, hi, hf, hif, hr, rfl⟩
    · have hrun : runUD (d ++ r) = (d, r) :=
        runUD_exact (digitGroups_mem hd) (expTail_head_not_UD hr)
      have hudA := (ud_iff d).1.mpr hd
      obtain ⟨v, hv⟩ := Option.isSome_iff_exists.mp ((parseExp_iff r).mpr hr)
      unfold parseFloatNum
      rw [hrun]
      rcases hr with rfl | ⟨e, s, d2, he, hs2, hd2, rfl⟩
      · simp [hudA, hv]
      · rcases he with rfl | rfl <;> simp [hudA, hv]
    · have hiUD : ∀ c ∈ i, isUD c = true := by
        rcases hi with rfl | hgi
        · simp
        · exact digitGroups_mem hgi
      have hfUD : ∀ c ∈ f, isUD c = true := by
        rcases hf with rfl | hgf
        · simp
        · exact digitGroups_mem hgf
      have hrunf : runUD (f ++ r) = (f, r) :=
        runUD_exact hfUD (expTail_head_not_UD hr)
      have hrun : runUD (i ++ '.' :: (f ++ r)) = (i, '.' :: (f ++ r)) := by
        apply runUD_exact hiUD
        intro c hc
        rw [List.head?_cons] at hc
        rw [← Option.some.inj hc]
        decide
      have h1 : (decide (i = []) || udA i) = true := by
        rcases hi with rfl | hgi
        · simp
        · simp [(ud_iff i).1.mpr hgi]
      have h2 : (decide (f = []) || udA f) = true := by
        rcases hf with rfl | hgf
        · simp
        · simp [(ud_iff f).1.mpr hgf]
      have h3 : (!(decide (i = []) && decide (f = []))) = true := by
        by_cases hie : i = []
        · have hfe : f ≠ [] := fun hc => hif ⟨hie, hc⟩
          simp [hie, hfe]
        · simp [hie]
      obtain ⟨v, hv⟩ := Option.isSome_iff_exists.mp ((parseExp_iff r).mpr hr)
      unfold parseFloatNum
      rw [hrun]
      simp only []
      rw [hrunf]
      simp [h1, h2, h3, hv]

theorem ws_lowAscii {c : Char} (h : isPySpace c = true) : lowAscii c = c := by
  rcases ws_cases h with rfl|rfl|rfl|rfl|rfl|rfl <;> decide

theorem mapLow_not_ws {b L : List Char} (hL : b.map lowAscii = L)
    (hLn : ∀ x ∈ L, isPySpace x = false) : ∀ c ∈ b, isPySpace c = false := by
  intro c hc
  by_contra hn
  have hw : isPySpace c = true := by
    revert hn
    cases isPySpace c <;> simp
  have hmem : lowAscii c ∈ L := by
    rw [← hL]
    exact List.mem_map_of_mem lowAscii hc
  rw [ws_lowAscii hw] at hmem
  rw [hLn c hmem] at hw
  exact absurd hw (by decide)

theorem expTail_not_ws {r : List Char} (hr : ExpTailP r) :
    ∀ c ∈ r, isPySpace c = false := by
  rcases hr with rfl | ⟨e, s, d, he, hs, hd, rfl⟩
  · simp
  · intro c hc
    rcases List.mem_cons.mp hc with rfl | hc2
    · rcases he with rfl | rfl <;> decide
    · rcases List.mem_append.mp hc2 with h | h
      · exact signOpt_mem_not_ws hs c h
      · exact UD_not_ws (digitGroups_mem hd c h)

theorem floatNum_not_ws {b : List Char} (hb : FloatNumP b) :
    ∀ c ∈ b, isPySpace c = false := by
  rcases hb with ⟨d, r, hd, hr, rfl⟩ | ⟨i, f, r, hi, hf, -, hr, rfl⟩
  · intro c hc
    rcases List.mem_append.mp hc with h | h
    · exact UD_not_ws (digitGroups_mem hd c h)
    · exact expTail_not_ws hr c h
  · intro c hc
    rcases List.mem_append.mp hc with h | h
    · rcases hi with rfl | hgi
      · simp at h
      · exact UD_not_ws (digitGroups_mem hgi c h)
    · rcases List.mem_cons.mp h with rfl | h2
      · decide
      · rcases List.mem_append.mp h2 with h3 | h3
        · rcases hf with rfl | hgf
          · simp at h3
          · exact UD_not_ws (digitGroups_mem hgf c h3)
        · exact expTail_not_ws hr c h3

theorem floatBody_not_ws {b : List Char}
    (hb : isInfSpelling b = true ∨ isNanSpelling b = true ∨ FloatNumP b) :
    ∀ c ∈ b, isPySpace c = false := by
  rcases hb with h | h | h
  · have h' : b.map lowAscii = ['i', 'n', 'f']
        ∨ b.map lowAscii = ['i', 'n', 'f', 'i', 'n', 'i', 't', 'y'] := by
      simpa [isInfSpelling] using h
    rcases h' with h2 | h2
    · exact mapLow_not_ws h2 (by decide)
    · exact mapLow_not_ws h2 (by decide)
  · have h2 : b.map lowAscii = ['n', 'a', 'n'] := by
      simpa [isNanSpelling] using h
    exact mapLow_not_ws h2 (by decide)
  · exact floatNum_not_ws h

theorem floatBody_ne_nil {b : List Char}
    (hb : isInfSpelling b = true ∨ isNanSpelling b = true ∨ FloatNumP b) :
    b ≠ [] := by
  rcases hb with h | h | h
  · intro hc
    subst hc
    exact absurd h (by decide)
  · intro hc
    subst hc
    exact absurd h (by decide)
  · rcases h with ⟨d, r, hd, -, rfl⟩ | ⟨i, f, r, -, -, -, -, rfl⟩
    · intro hc
      exact digitGroups_ne_nil hd (List.append_eq_nil.mp hc).1
    · intro hc
      exact absurd (List.append_eq_nil.mp hc).2 (by simp)

theorem mapLow_head_ne {b L : List Char} {x : Char} (hL : b.map lowAscii = x :: L)
    (hx1 : x ≠ '+') (hx2 : x ≠ '-') :
    ∀ c, b.head? = some c → c ≠ '+' ∧ c ≠ '-' := by
  intro c hc
  cases b with
  | nil => exact absurd hc (by simp)
  | cons c0 bs =>
    rw [List.head?_cons] at hc
    rw [← Option.some.inj hc]
    rw [List.map_cons] at hL
    have h0 : lowAscii c0 = x := (List.cons.injEq _ _ _ _ ▸ hL).1
    constructor
    · intro hp
      rw [hp] at h0
      exact hx1 (by rw [← h0]; rfl)
    · intro hp
      rw [hp] at h0
      exact hx2 (by rw [← h0]; rfl)

theorem floatBody_head_not_sign {b : List Char}
    (hb : isInfSpelling b = true ∨ isNanSpelling b = true ∨ FloatNumP b) :
    ∀ c, b.head? = some c → c ≠ '+' ∧ c ≠ '-' := by
  rcases hb with h | h | h
  · have h' : b.map lowAscii = ['i', 'n', 'f']
        ∨ b.map lowAscii = ['i', 'n', 'f', 'i', 'n', 'i', 't', 'y'] := by
      simpa [isInfSpelling] using h
    rcases h' with h2 | h2
    · exact mapLow_head_ne h2 (by decide) (by decide)
    · exact mapLow_head_ne h2 (by decide) (by decide)
  · have h2 : b.map lowAscii = ['n', 'a', 'n'] := by
      simpa [isNanSpelling] using h
    exact mapLow_head_ne h2 (by decide) (by decide)
  · rcases h with ⟨d, r, hd, -, rfl⟩ | ⟨i, f, r, hi, -, -, -, rfl⟩
    · intro c hc
      obtain ⟨g, gs, hgne, hgd, -, rfl⟩ := hd
      cases g with
      | nil => exact absurd rfl hgne
      | cons c0 g2 =>
        rw [List.cons_append, List.cons_append, List.head?_cons] at hc
        rw [← Option.some.inj hc]
        exact ⟨digit_ne_plus (hgd c0 (by simp)), digit_ne_minus (hgd c0 (by simp))⟩
    · intro c hc
      rcases hi with rfl | hgi
      · rw [List.nil_append, List.head?_cons] at hc
        rw [← Option.some.inj hc]
        exact ⟨by decide, by decide⟩
      · obtain ⟨g, gs, hgne, hgd, -, rfl⟩ := hgi
        cases g with
        | nil => exact absurd rfl hgne
        | cons c0 g2 =>
          rw [List.cons_append, List.cons_append, List.head?_cons] at hc
          rw [← Option.some.inj hc]
          exact ⟨digit_ne_plus (hgd c0 (by simp)), digit_ne_minus (hgd c0 (by simp))⟩

theorem splitSign_body {s b : List Char} (hs : SignOptP s)
    (hh : ∀ c, b.head? = some c → c ≠ '+' ∧ c ≠ '-') :
    (splitSign (s ++ b)).2 = b := by
  rcases hs with rfl | rfl | rfl
  · rw [List.nil_append]
    rw [splitSign_nosign]
    · intro hc
      exact (hh _ hc).1 rfl
    · intro hc
      exact (hh _ hc).2 rfl
  · rfl
  · rfl

theorem pyFloat_eval {x b : List Char} (hsp : (splitSign (stripPy x)).2 = b) :
    (pyFloatOfList x).isSome = true
      ↔ (isInfSpelling b = true ∨ isNanSpelling b = true
          ∨ (parseFloatNum b).isSome = true) := by
  by_cases hinf : isInfSpelling b = true
  · simp [pyFloatOfList, hsp, hinf]
  · by_cases hnan : isNanSpelling b = true
    · simp [pyFloatOfList, hsp, hinf, hnan]
    · cases hpf : parseFloatNum b with
      | some me => simp [pyFloatOfList, hsp, hinf, hnan, hpf]
      | none => simp [pyFloatOfList, hsp, hinf, hnan, hpf]

theorem pyFloat_iff (l : List Char) : (pyFloatOfList l).isSome = true ↔ PyFloatTextP l := by
  constructor
  · intro h
    obtain ⟨w1, w2, hw1, hw2, hl⟩ := stripPy_decomp l
    obtain ⟨s, hs, ht⟩ := splitSign_decomp (stripPy l)
    have hbody := (pyFloat_eval rfl).mp h
    refine ⟨w1, s, (splitSign (stripPy l)).2, w2, hw1, hs, ?_, hw2, ?_⟩
    · rcases hbody with h1 | h1 | h1
      · exact Or.inl h1
      · exact Or.inr (Or.inl h1)
      · exact Or.inr (Or.inr ((parseFloatNum_iff _).mp h1))
    · have hl2 : l = w1 ++ (s ++ (splitSign (stripPy l)).2) ++ w2 := by
        rw [← ht]
        exact hl
      conv_lhs => rw [hl2]
      simp [List.append_assoc]
  · rintro ⟨w1, s, b, w2, hw1, hs, hb, hw2, rfl⟩
    have hmw : ∀ c ∈ s ++ b, isPySpace c = false := by
      intro c hc
      rcases List.mem_append.mp hc with h | h
      · exact signOpt_mem_not_ws hs c h
      · exact floatBody_not_ws hb c h
    have hmne : s ++ b ≠ [] := by
      intro h
      exact floatBody_ne_nil hb (List.append_eq_nil.mp h).2
    have hre : w1 ++ s ++ b ++ w2 = w1 ++ (s ++ b) ++ w2 := by
      simp [List.append_assoc]
    rw [hre]
    have hsp : (splitSign (stripPy (w1 ++ (s ++ b) ++ w2))).2 = b := by
      rw [stripPy_exact hw1 hw2 hmne hmw]
      exact splitSign_body hs (floatBody_head_not_sign hb)
    refine (pyFloat_eval hsp).mpr ?_
    rcases hb with h | h | h
    · exact Or.inl h
    · exact Or.inr (Or.inl h)
    · exact Or.inr (Or.inr ((parseFloatNum_iff b).mpr h))

theorem convert_value_eq {l : List Char} (h : l ≠ []) :
    convert_value l = (match pyIntOfList (unquote l) with
      | some n => Value.vInt n
      | none => match pyFloatOfList (unquote l) with
        | some f => Value.vFloat f
        | none => Value.vStr (unquote l)) := by
  simp only [convert_value, if_neg h]

theorem pyInt_none_iff (l : List Char) :
    pyIntOfList l = none ↔ ¬ PyIntTextP l := by
  rw [← pyInt_iff]
  cases pyIntOfList l <;> simp

theorem pyFloat_none_iff (l : List Char) :
    pyFloatOfList l = none ↔ ¬ PyFloatTextP l := by
  rw [← pyFloat_iff]
  cases pyFloatOfList l <;> simp

theorem cv_int_iff {l : List Char} (h : l ≠ []) :
    (∃ n, convert_value l = Value.vInt n) ↔ PyIntTextP (unquote l) := by
  rw [← pyInt_iff]
  cases hmi : pyIntOfList (unquote l) with
  | some n =>
    constructor
    · intro _
      simp [hmi]
    · intro _
      refine ⟨n, ?_⟩
      rw [convert_value_eq h, hmi]
  | none =>
    constructor
    · rintro ⟨n, hn⟩
      rw [convert_value_eq h, hmi] at hn
      cases hmf : pyFloatOfList (unquote l) with
      | some f =>
        rw [hmf] at hn
        simp at hn
      | none =>
        rw [hmf] at hn
        simp at hn
    · intro hs
      simp at hs

theorem cv_float_iff {l : List Char} (h : l ≠ []) :
    (∃ f, convert_value l = Value.vFloat f)
      ↔ (¬ PyIntTextP (unquote l) ∧ PyFloatTextP (unquote l)) := by
  constructor
  · rintro ⟨f, hf⟩
    rw [convert_value_eq h] at hf
    cases hmi : pyIntOfList (unquote l) with
    | some n =>
      rw [hmi] at hf
      simp at hf
    | none =>
      rw [hmi] at hf
      cases hmf : pyFloatOfList (unquote l) with
      | some g =>
        refine ⟨(pyInt_none_iff _).mp hmi, (pyFloat_iff _).mp (by simp [hmf])⟩
      | none =>
        rw [hmf] at hf
        simp at hf
  · rintro ⟨h1, h2⟩
    have hmi : pyIntOfList (unquote l) = none := (pyInt_none_iff _).mpr h1
    obtain ⟨f, hf⟩ := Option.isSome_iff_exists.mp ((pyFloat_iff _).mpr h2)
    refine ⟨f, ?_⟩
    rw [convert_value_eq h, hmi, hf]

theorem cv_str {l : List Char} (h : l ≠ []) (h1 : ¬ PyIntTextP (unquote l))
    (h2 : ¬ PyFloatTextP (unquote l)) :
    convert_value l = Value.vStr (unquote l) := by
  rw [convert_value_eq h, (pyInt_none_iff _).mpr h1, (pyFloat_none_iff _).mpr h2]

/-- C4 counterexample: the claim requires Integer exactly when the text
(after optional quote stripping) is an optional sign followed by base-10
digits only; `specIntText` states that rule in the claim's words. Python
`int()` also accepts PEP 515 underscores between digits and surrounding
whitespace, so `1_2` converts to Integer 12 and ` 7` to Integer 7 although
neither is sign-plus-digits-only; `float()` moreover accepts `inf`, which
is not decimal or exponential notation. -/
theorem c4_int_shape_counterexample :
    convert_value (str "1_2") = Value.vInt 12
    ∧ specIntText (str "1_2") = false
    ∧ convert_value (str " 7") = Value.vInt 7
    ∧ specIntText (str " 7") = false
    ∧ convert_value (str "inf") = Value.vFloat PyFloat.inf := by
  decide

/-- C4 (amended): `convert_value` is deterministic and total and the spec's
four examples hold; empty input returns empty Text and one surrounding
quote pair is stripped first. But the Integer rule is Python `int()`
acceptance: optional whitespace, an optional sign and a digit run with
PEP 515 underscores (`PyIntTextP`), not sign-plus-digits-only; the Float
rule (tried only when `int()` fails) is Python `float()` acceptance:
optional whitespace and sign with decimal/exponential notation with
underscore runs or a case-insensitive `inf`/`infinity`/`nan` spelling
(`PyFloatTextP`); otherwise the unquoted text is returned as Text. -/
theorem c4_type_inference :
    convert_value (str "123") = Value.vInt 123
    ∧ convert_value (str "1.5") = Value.vFloat (PyFloat.finite (mkRat 3 2))
    ∧ convert_value (str "") = Value.vStr []
    ∧ convert_value (str "abc") = Value.vStr (str "abc")
    ∧ (∀ l : List Char, l ≠ [] →
        ((∃ n, convert_value l = Value.vInt n) ↔ PyIntTextP (unquote l)))
    ∧ (∀ l : List Char, l ≠ [] →
        ((∃ f, convert_value l = Value.vFloat f)
          ↔ (¬ PyIntTextP (unquote l) ∧ PyFloatTextP (unquote l))))
    ∧ (∀ l : List Char, l ≠ [] → ¬ PyIntTextP (unquote l) →
        ¬ PyFloatTextP (unquote l) → convert_value l = Value.vStr (unquote l)) := by
  refine ⟨by decide, by decide, by decide, by decide, ?_, ?_, ?_⟩
  · intro l h
    exact cv_int_iff h
  · intro l h
    exact cv_float_iff h
  · intro l h h1 h2
    exact cv_str h h1 h2

/-- C4 witness: the Integer characterization of `c4_type_inference`
applied at the concrete text ` 1_2 `, which `int()` accepts with value
12. -/
theorem c4_type_inference_witness :
    PyIntTextP (unquote (str " 1_2 ")) :=
  (c4_type_inference.2.2.2.2.1 (str " 1_2 ") (by decide)).mp ⟨12, by decide⟩

/-- C7 counterexample: the claim states that values of different types are
always distinct group keys, naming Integer 1 and Float 1.0 as an example.
Python dict keys compare with `==`, under which `1 == 1.0`, so grouping a
column containing Integer 1 and Float 1.0 produces one single group, not
two. -/
theorem c7_int_float_key_counterexample :
    DataFrame.group_by ⟨[(Value.vStr (str "a"), [Value.vInt 1, Value.vFloat (PyFloat.finite (mkRat 1 1))])]⟩
        (Value.vStr (str "a"))
      = some [(Value.vInt 1,
          ⟨[(Value.vStr (str "a"), [Value.vInt 1, Value.vFloat (PyFloat.finite (mkRat 1 1))])]⟩)]
      ∧ Value.vInt 1 ≠ Value.vFloat (PyFloat.finite (mkRat 1 1)) := by
  decide

end Df
